import Mathlib

/-!
Verification of the Munin database creator (an Arduino library indexer).

The Python sources (`util.py`, `analyzer.py`, `database.py`) are shallowly
embedded below.  Text is modelled as `List Char` (abbreviated `Str`); Python
string operations used by the program are embedded as functions on `List Char`.
Python `dict`s (which preserve insertion order and have unique keys) are
modelled as association lists with first-occurrence lookup and in-place
first-occurrence update; Python `set`s of strings are modelled as duplicate-free
lists with membership-guarded insertion.  Each `re.fullmatch` call is embedded
as an executable function recognising exactly the language of the regular
expression in question (the regex is quoted in the doc comment).
-/

set_option maxRecDepth 8192
set_option synthInstance.maxSize 1024

abbrev Str := List Char

/-! ## Generic helpers: Python dict / set operations -/

/-- Python `d[k]` / `k in d`: first-occurrence lookup in an association list. -/
def dictGet {β : Type} (d : List (Str × β)) (k : Str) : Option β :=
  match d with
  | [] => none
  | (k', v) :: rest => if k' = k then some v else dictGet rest k

/-- Python `d[k] = v`: update the first occurrence in place, append if absent.
On a duplicate-free key list this is exactly the Python dict assignment
(which keeps the key's insertion position). -/
def dictSet {β : Type} (d : List (Str × β)) (k : Str) (v : β) : List (Str × β) :=
  match d with
  | [] => [(k, v)]
  | (k', v') :: rest => if k' = k then (k', v) :: rest else (k', v') :: dictSet rest k v

/-- Python `s.add(x)` on a set modelled as a duplicate-free list. -/
def setAdd (s : List Str) (x : Str) : List Str :=
  if x ∈ s then s else s ++ [x]

/-- `str.split(sep)` for a one-character separator (no empty-piece dropping). -/
def splitOnChar (sep : Char) : Str → List Str
  | [] => [[]]
  | c :: rest =>
    match splitOnChar sep rest with
    | [] => [[c]]
    | h :: t => if c = sep then [] :: h :: t else (c :: h) :: t

/-! ## `util.py` -/

/-- The ASCII whitespace characters removed by Python `str.strip()`
(Unicode space characters are not modelled). -/
def isPySpace (c : Char) : Bool :=
  c = ' ' || c = '\t' || c = '\n' || c = '\r' || c = '\x0b' || c = '\x0c'

/-- Python `line.strip()`. -/
def pyStrip (s : Str) : Str :=
  ((s.dropWhile isPySpace).reverse.dropWhile isPySpace).reverse

/-- Worker for `splitLinesPy`: `acc` holds the current line, reversed. -/
def splitLinesPyGo (acc : Str) : Str → List Str
  | [] => if acc = [] then [] else [acc.reverse]
  | '\r' :: '\n' :: rest => acc.reverse :: splitLinesPyGo [] rest
  | '\r' :: rest => acc.reverse :: splitLinesPyGo [] rest
  | '\n' :: rest => acc.reverse :: splitLinesPyGo [] rest
  | c :: rest => splitLinesPyGo (c :: acc) rest

/-- Python `source.splitlines()`, modelled for the `\n`, `\r` and `\r\n`
line terminators (the ones occurring in practice). -/
def splitLinesPy (s : Str) : List Str :=
  splitLinesPyGo [] s

/-- Full match of `.+[.](h|hpp)` (the second capture group's pattern in the
include regex of `util.py`): at least one non-newline character, then a literal
dot and `h` or `hpp`.  Stated by suffix inspection: the language is exactly the
newline-free strings ending in `.h` (length ≥ 3) or `.hpp` (length ≥ 5). -/
def includeTargetMatch (mid : Str) : Bool :=
  !mid.contains '\n' &&
    ((mid.drop (mid.length - 2) == ".h".toList && decide (3 ≤ mid.length)) ||
     (mid.drop (mid.length - 4) == ".hpp".toList && decide (5 ≤ mid.length)))

/-- `re.fullmatch(r'^#include ("|<)(.+[.](h|hpp))("|>)$', line)` from
`util.py`, returning the second capture group.  By the anchors, the opening
delimiter is the character right after `#include `, the closing delimiter is
the final character, and the captured header is everything in between.  Note
that the opening and closing delimiters are matched by two independent
single-character alternatives. -/
def includeLineMatch (line : Str) : Option Str :=
  if line.take 9 = "#include ".toList then
    match line.drop 9 with
    | [] => none
    | d1 :: rest =>
      if d1 = '"' ∨ d1 = '<' then
        match rest.getLast? with
        | none => none
        | some d2 =>
          if (d2 = '"' ∨ d2 = '>') ∧ includeTargetMatch rest.dropLast then
            some rest.dropLast
          else none
      else none
  else none

/-- `util.get_included_headers_from_source_code`: strip each line of the
source and collect the headers of the lines matching the include regex, in
line order (duplicates kept, exactly as the Python loop appends them). -/
def get_included_headers_from_source_code (source : Str) : List Str :=
  (splitLinesPy source).filterMap (fun line => includeLineMatch (pyStrip line))

example : splitLinesPy "a\nb".toList = ["a".toList, "b".toList] := by decide
example : splitLinesPy "a\r\nb\n".toList = ["a".toList, "b".toList] := by decide
example : pyStrip "  x y\t".toList = "x y".toList := by decide
example : get_included_headers_from_source_code "#include <Foo.h>\nint x;\n // #include <Bar.h>\n#include \"Baz.hpp\"".toList
    = ["Foo.h".toList, "Baz.hpp".toList] := by decide
example : get_included_headers_from_source_code "#include \"Foo.h>".toList = ["Foo.h".toList] := by decide
example : get_included_headers_from_source_code "#include <.h>\nx #include <A.h>".toList = [] := by decide

/-! ## `analyzer.py`: header and sketch locators -/

/-- `pathlib.Path(f).name` for the slash-free-tail paths produced by the
matchers below: the part after the last `/`. -/
def pathName (f : Str) : Str :=
  (f.reverse.takeWhile (fun c => c ≠ '/')).reverse

/-- Full match of `[^/]+[.](h|hpp)` against a path component: no slash, and a
nonempty stem followed by `.h` or `.hpp`. -/
def headerExtMatch (d : Str) : Bool :=
  !d.contains '/' &&
    ((d.drop (d.length - 2) == ".h".toList && decide (3 ≤ d.length)) ||
     (d.drop (d.length - 4) == ".hpp".toList && decide (5 ≤ d.length)))

/-- `re.fullmatch(r'^[^/]+/src/[^/]+[.](h|hpp)$', f)` from
`Analyzer.get_headers_for_library`.  The leading `[^/]+` is necessarily the
(nonempty) segment before the first slash. -/
def srcHeaderMatch (f : Str) : Bool :=
  let a := f.takeWhile (fun c => c ≠ '/')
  !(a == []) && ((f.drop a.length).take 5 == "/src/".toList) &&
    headerExtMatch (f.drop (a.length + 5))

/-- `re.fullmatch(r'^[^/]+/[^/]+[.](h|hpp)$', f)` from
`Analyzer.get_headers_for_library`. -/
def rootHeaderMatch (f : Str) : Bool :=
  let a := f.takeWhile (fun c => c ≠ '/')
  !(a == []) && ((f.drop a.length).take 1 == "/".toList) &&
    headerExtMatch (f.drop (a.length + 1))

/-- `Analyzer.get_headers_for_library`.  The archive is modelled as
`none` for a `BadZipFile` (the function returns `None`) or `some` of the
archive's name list.  First every `*/src/*.h(pp)` entry's basename is
collected; only when that list is empty is the archive root `*/*.h(pp)`
pattern consulted; an empty result is returned as `some []`, not `none`. -/
def get_headers_for_library (archive : Option (List Str)) : Option (List Str) :=
  match archive with
  | none => none
  | some filenames =>
    let headers := (filenames.filter srcHeaderMatch).map pathName
    if headers.length > 0 then some headers
    else some ((filenames.filter rootHeaderMatch).map pathName)

/-- One candidate split for `sketchBodyMatch`: the copied group has length
`k`, the slash between the two copies sits at position `R.length - k - 1`. -/
def sketchSplitOk (r : Str) (k : Nat) : Bool :=
  decide (2 * k + 1 ≤ r.length) &&
    (let b := r.length - (2 * k + 1)
     ((r.drop (b + k)).take 1 == "/".toList) &&
     ((r.take (b + k)).drop b == r.drop (b + k + 1)) &&
     !(r.drop (b + k + 1)).contains '\n' &&
     (r.take b == [] ||
       ((r.take b).drop (b - 1) == "/".toList && decide (2 ≤ b) &&
        !((r.take b).take (b - 1)).contains '\n')))

/-- Full match of `(|.+/)(.+)/\2` against `r`: some nonempty newline-free
group `N` (which may itself contain slashes) occurs twice, separated by a
slash, after a part that is empty or some nonempty newline-free text ending
in a slash.  Decidable by searching over the length of `N`. -/
def sketchBodyMatch (r : Str) : Bool :=
  (List.range r.length).any (fun j => sketchSplitOk r (j + 1))

/-- Full match of `(|.+/)(.+)/\2[.](ino|pde)` against `r` (the part of the
sketch regex after `*/examples/`). -/
def sketchTailMatch (r : Str) : Bool :=
  ((r.drop (r.length - 4) == ".ino".toList || r.drop (r.length - 4) == ".pde".toList) &&
    decide (4 ≤ r.length)) &&
  sketchBodyMatch (r.take (r.length - 4))

/-- `re.fullmatch(r'^[^/]+/examples/(|.+/)(.+)/\2[.](ino|pde)$', f)` from
`Analyzer.get_example_sketches`. -/
def sketchMatch (f : Str) : Bool :=
  let a := f.takeWhile (fun c => c ≠ '/')
  !(a == []) && ((f.drop a.length).take 10 == "/examples/".toList) &&
    sketchTailMatch (f.drop (a.length + 10))

/-- `Analyzer.get_example_sketches`: keep the archive entries matching the
sketch pattern, in order. -/
def get_example_sketches (filenames : List Str) : List Str :=
  filenames.filter sketchMatch

example : get_example_sketches ["Lib/examples/Blink/Blink.ino".toList] =
    ["Lib/examples/Blink/Blink.ino".toList] := by decide
example : get_example_sketches ["Lib/examples/grp/Blink/Blink.pde".toList] =
    ["Lib/examples/grp/Blink/Blink.pde".toList] := by decide
example : get_example_sketches ["Lib/examples/Blink/Other.ino".toList] = [] := by decide
example : get_example_sketches ["Lib/examples/a/b/a/b.ino".toList] =
    ["Lib/examples/a/b/a/b.ino".toList] := by decide
example : get_example_sketches ["Lib/examples/Blink.ino".toList] = [] := by decide
example : get_headers_for_library (some ["Lib/src/A.h".toList, "Lib/B.h".toList]) =
    some ["A.h".toList] := by decide
example : get_headers_for_library (some ["Lib/B.hpp".toList]) = some ["B.hpp".toList] := by decide
example : get_headers_for_library (some ["Lib/x/y.h".toList]) = some [] := by decide

/-! ## `database.py`: feature database and header dictionary -/

/-- `database.LibraryInfo` (name, version, storage path). -/
structure LibraryInfo where
  name : Str
  version : Str
  path : Str
deriving DecidableEq, Repr

/-- `FeatureEntry.examples`: example name → recorded header list. -/
abbrev FeatureEntry := List (Str × List Str)

/-- `database.FeatureDatabase`: library name → version → `FeatureEntry`. -/
structure FeatureDatabase where
  libraries : List (Str × List (Str × FeatureEntry))
deriving Repr

instance : DecidableEq FeatureDatabase := fun a b =>
  decidable_of_iff (a.libraries = b.libraries) (by cases a; cases b; simp)

/-- `FeatureDatabase.add_entry`: create the nested dicts on demand, then
`FeatureEntry.set_entry` stores the example's header list. -/
def FeatureDatabase.add_entry (db : FeatureDatabase) (name version exName : Str)
    (headers : List Str) : FeatureDatabase :=
  let variants := (dictGet db.libraries name).getD []
  let fe := (dictGet variants version).getD []
  ⟨dictSet db.libraries name (dictSet variants version (dictSet fe exName headers))⟩

/-- `FeatureDatabase.search_all_for_headers`: iterate over every recorded
example and keep the triples whose header list is nonempty and a subset of
`headers` (`set(example_headers).issubset(set(headers))`). -/
def FeatureDatabase.search_all_for_headers (db : FeatureDatabase) (headers : List Str) :
    List (Str × Str × Str) :=
  db.libraries.flatMap (fun nv =>
    nv.2.flatMap (fun vf =>
      (vf.2.filter (fun ex => !(ex.2 == []) && ex.2.all (fun h => decide (h ∈ headers)))).map
        (fun ex => (nv.1, vf.1, ex.1))))

/-- The recorded header list of one example, read through the nested dicts. -/
def FeatureDatabase.lookup (db : FeatureDatabase) (name version exName : Str) :
    Option (List Str) :=
  (dictGet db.libraries name).bind fun variants =>
    (dictGet variants version).bind fun fe => dictGet fe exName

/-- The `'\n'`-joined set-dictionary entry `'{}\n{}'.format(name, version)`
(see the comment above `Database.add_header_dictionary_entry`). -/
def libKeyStr (info : LibraryInfo) : Str :=
  info.name ++ '\n' :: info.version

/-- `Database.add_header_dictionary_entry`: for each header, add the
`name\nversion` string to the header's candidate set, creating the set on
first use. -/
def add_header_dictionary_entry (hd : List (Str × List Str)) (info : LibraryInfo)
    (headers : List Str) : List (Str × List Str) :=
  headers.foldl (fun hd h =>
    match dictGet hd h with
    | some s => dictSet hd h (setAdd s (libKeyStr info))
    | none => dictSet hd h [libKeyStr info]) hd

/-- `Database.search`: look the header up in the header dictionary and split
each stored `name\nversion` string back into the pair
(`values[0]`, `values[1]`; a missing piece is modelled as `[]`). -/
def headerDictSearch (hd : List (Str × List Str)) (header_name : Str) :
    List (Str × Str) :=
  match dictGet hd header_name with
  | none => []
  | some libs => libs.map (fun l =>
      let values := splitOnChar '\n' l
      (values.headD [], values.tail.headD []))

/-! ## `database.py`: version selection (`compute_extract_targets`) -/

/-- Decimal number parse for one semantic-version component. -/
def parseNatStr (s : Str) : Option Nat :=
  if s ≠ [] ∧ s.all Char.isDigit then
    some (s.foldl (fun n c => 10 * n + (c.toNat - 48)) 0)
  else none

/-- Parse a `MAJOR.MINOR.PATCH` version string.  Modelled from the spec: the
external `semver` package (not part of this repository) parses the version
strings stored in the library index; prerelease/build suffixes are not
modelled and yield `none`. -/
def parseSemver (s : Str) : Option (Nat × Nat × Nat) :=
  match splitOnChar '.' s with
  | [a, b, c] =>
    match parseNatStr a, parseNatStr b, parseNatStr c with
    | some x, some y, some z => some (x, y, z)
    | _, _, _ => none
  | _ => none

/-- Numeric comparison of parsed versions, precedence major, minor, patch. -/
def compareTriple (x y : Nat × Nat × Nat) : Int :=
  if x.1 < y.1 then -1 else if y.1 < x.1 then 1
  else if x.2.1 < y.2.1 then -1 else if y.2.1 < x.2.1 then 1
  else if x.2.2 < y.2.2 then -1 else if y.2.2 < x.2.2 then 1 else 0

/-- `semver.compare` on version strings.  Modelled from the spec: the real
package raises `ValueError` on an unparsable version; the fallback value `0`
below is never relied upon (theorems assume parsable versions). -/
def semverCompare (a b : Str) : Int :=
  match parseSemver a, parseSemver b with
  | some x, some y => compareTriple x y
  | _, _ => 0

/-- The two version specifiers `Database.ALL_VERSIONS` (0) and
`Database.LATEST_VERSIONS` (1); any other flag value raises `ValueError`. -/
inductive VersionFlag where
  | allVersions
  | latestVersions
deriving DecidableEq, Repr

/-- One resolved extraction target: a `LibraryInfo` paired with the optional
example-name restriction for it (`None` meaning all examples). -/
abbrev TargetItem := LibraryInfo × Option (List Str)

/-- The `for i in range(len(info_list))` loop of
`Database.compute_extract_targets`: thread the `max_version` and
`variant_bucket` dicts over the candidate items.  A name already in the
bucket is replaced exactly when `semver.compare(max_version[name],
version) < 0`; otherwise both dicts are initialised for the name. -/
def latestLoop : List TargetItem → List (Str × Str) → List (Str × List TargetItem) →
    List (Str × Str) × List (Str × List TargetItem)
  | [], maxV, bucket => (maxV, bucket)
  | item :: rest, maxV, bucket =>
    if (dictGet bucket item.1.name).isSome then
      if semverCompare ((dictGet maxV item.1.name).getD []) item.1.version < 0 then
        latestLoop rest (dictSet maxV item.1.name item.1.version)
          (dictSet bucket item.1.name [item])
      else latestLoop rest maxV bucket
    else
      latestLoop rest (dictSet maxV item.1.name item.1.version)
        (dictSet bucket item.1.name [item])

/-- `Database.compute_extract_targets`, from the point where the candidate
information has been collected: `infoList` is the list of locally present
library variants (the result of `get_library_info_list` when no example
filter is given) and `examplesList` the per-variant example restriction
produced from the filter (`none` when `examples is None`).  The
`variant_bucket` dict is only populated inside the
`if version_flag != Database.ALL_VERSIONS:` guard; the returned
`extract_targets` list is the concatenation of its values. -/
def targetItems (infoList : List LibraryInfo)
    (examplesList : Option (List (List Str))) : List TargetItem :=
  match examplesList with
  | none => infoList.map (fun i => (i, none))
  | some exs => infoList.zip (exs.map some)

/-- `Database.compute_extract_targets` continued: see `targetItems`. -/
def compute_extract_targets (infoList : List LibraryInfo)
    (examplesList : Option (List (List Str))) (version_flag : VersionFlag) :
    List TargetItem :=
  let items : List TargetItem := targetItems infoList examplesList
  let bucket :=
    match version_flag with
    | VersionFlag.allVersions => []
    | VersionFlag.latestVersions => (latestLoop items [] []).2
  (bucket.map (fun p => p.2)).flatten

example : compute_extract_targets [⟨"A".toList, "1.0.0".toList, [] ⟩] none VersionFlag.allVersions = [] := by decide
example : compute_extract_targets
    [⟨"X".toList, "1.0.0".toList, []⟩, ⟨"X".toList, "1.2.0".toList, []⟩, ⟨"X".toList, "1.1.0".toList, []⟩]
    none VersionFlag.latestVersions = [(⟨"X".toList, "1.2.0".toList, []⟩, none)] := by decide
example : compute_extract_targets
    [⟨"X".toList, "1.2.0".toList, "p".toList⟩, ⟨"X".toList, "1.2.0".toList, "q".toList⟩]
    none VersionFlag.latestVersions = [(⟨"X".toList, "1.2.0".toList, "p".toList⟩, none)] := by decide

/-! ## `database.py`: extraction-target resolution -/

/-- The root-candidate test in `Database.get_example_sketches_to_extract`:
`zipfile.Path(z, p)` has a nonempty `name`, `is_dir()` holds, and the parent's
`name` is empty.  On an entry string `p` this means: `p` ends in `/`, and the
part before that final slash is nonempty and slash-free (a single top-level
directory entry such as `Lib/`). -/
def rootCandidate (p : Str) : Bool :=
  (p.drop (p.length - 1) == "/".toList) && decide (2 ≤ p.length) &&
    !(p.take (p.length - 1)).contains '/'

/-- The root-search loop: the first candidate wins, later candidates only
produce a warning.  The stored value is `item_path.name`, i.e. the candidate
without its trailing slash. -/
def findArchiveRootAux (acc : Option Str) : List Str → Option Str
  | [] => acc
  | p :: rest =>
    if rootCandidate p then
      match acc with
      | some r => findArchiveRootAux (some r) rest
      | none => findArchiveRootAux (some (p.take (p.length - 1))) rest
    else findArchiveRootAux acc rest

/-- Locate the archive's root directory over the name list. -/
def find_archive_root (names : List Str) : Option Str :=
  findArchiveRootAux none names

/-- Extension alternatives of the extraction regex:
`(ino|pde|c|h|cpp|hpp|cxx|hxx|cc)`. -/
def extractExts : List Str :=
  ["ino".toList, "pde".toList, "c".toList, "h".toList, "cpp".toList,
   "hpp".toList, "cxx".toList, "hxx".toList, "cc".toList]

/-- Full match of `[^/]+[.](ext…)` against the (slash-free) last path
segment: a nonempty stem, a literal dot, and one of the nine extensions. -/
def extractLastSegMatch (l : Str) : Bool :=
  extractExts.any (fun e =>
    l.drop (l.length - (e.length + 1)) == '.' :: e &&
      decide (e.length + 2 ≤ l.length))

/-- `re.fullmatch(r'^[^/]+/examples/((|.+/).+)/[^/]+[.](ino|pde|c|h|cpp|hpp|cxx|hxx|cc)$', f)`
from `Database.get_example_sketches_to_extract` (and
`extract_examples_from_library`), returning the first capture group.  Since
everything after the group's closing slash is slash-free, that slash is the
last slash of `f`, so the (greedy) group is everything between `examples/`
and the last slash; the group's own pattern `(|.+/).+` accepts exactly the
nonempty newline-free strings. -/
def extractSourceMatch (f : Str) : Option Str :=
  let a := f.takeWhile (fun c => c ≠ '/')
  if !(a == []) && ((f.drop a.length).take 10 == "/examples/".toList) then
    let r := f.drop (a.length + 10)
    let l := (r.reverse.takeWhile (fun c => c ≠ '/')).reverse
    if l.length < r.length then
      let g := r.take (r.length - l.length - 1)
      if !(g == []) && !g.contains '\n' && extractLastSegMatch l then some g
      else none
    else none
  else none

/-- Path segments for `os.path.relpath` (empty segments are dropped, as
`posixpath` normalisation does). -/
def relSegs (p : Str) : List Str :=
  (splitOnChar '/' p).filter (fun s => s ≠ [])

/-- Drop the longest common head of two segment lists. -/
def dropCommon : List Str → List Str → List Str × List Str
  | x :: xs, y :: ys => if x = y then dropCommon xs ys else (x :: xs, y :: ys)
  | xs, ys => (xs, ys)

/-- `os.path.relpath(f, start)` for the normalised relative POSIX paths this
program produces: strip the common segments, then one `..` per remaining
`start` segment followed by the remaining `f` segments. -/
def pyRelPath (f start : Str) : Str :=
  let (fs, ss) := dropCommon (relSegs f) (relSegs start)
  let segs := ss.map (fun _ => "..".toList) ++ fs
  if segs = [] then ".".toList else List.intercalate "/".toList segs

/-- One target entering the resolution loop of
`Database.get_example_sketches_to_extract`: the `(LibraryInfo, examples)`
pair produced by `compute_extract_targets` together with the zip archive
found at the library's storage path (`none` models a `BadZipFile`, `some`
the archive's name list) and the archive file's path. -/
structure ExtractTarget where
  info : LibraryInfo
  examples : Option (List Str)
  archivePath : Str
  archive : Option (List Str)
deriving DecidableEq, Repr

/-- One row of the result:
`([example_source_path, ...], library_name, library_version, archive_path, archive_root)`. -/
abbrev ExtractRow := List Str × Str × Str × Str × Str

/-- The per-target loop of `Database.get_example_sketches_to_extract`.
A `BadZipFile` (bare `return`) and a missing archive root (`return None`)
both abandon the whole resolution, discarding `res`. -/
def extractLoop (storageRoot : Str) (res : List ExtractRow) :
    List ExtractTarget → Option (List ExtractRow)
  | [] => some res
  | t :: rest =>
    match t.archive with
    | none => none
    | some names =>
      match find_archive_root names with
      | none => none
      | some root =>
        let sources := names.filterMap (fun f =>
          match extractSourceMatch f with
          | none => none
          | some g =>
            match t.examples with
            | some exs =>
              if g ∈ exs then some (pyRelPath f (root ++ "/examples".toList)) else none
            | none => some (pyRelPath f (root ++ "/examples".toList)))
        extractLoop storageRoot
          (res ++ [(sources, t.info.name, t.info.version,
            pyRelPath t.archivePath storageRoot, root)]) rest

/-- `Database.get_example_sketches_to_extract`, from the point where
`compute_extract_targets` has produced the targets.  `storageRoot` is the
library storage directory against which the archive path is relativised. -/
def get_example_sketches_to_extract (storageRoot : Str) (targets : List ExtractTarget) :
    Option (List ExtractRow) :=
  extractLoop storageRoot [] targets

example :
    get_example_sketches_to_extract "db/libraries".toList
      [⟨⟨"L".toList, "1.0.0".toList, []⟩, none, "db/libraries/L/1.0.0/l.zip".toList,
        some ["L/".toList, "L/examples/Blink/Blink.ino".toList]⟩] =
    some [(["Blink/Blink.ino".toList], "L".toList, "1.0.0".toList,
      "L/1.0.0/l.zip".toList, "L".toList)] := by decide
example :
    get_example_sketches_to_extract "db".toList
      [⟨⟨"L".toList, "1.0.0".toList, []⟩, none, "db/l.zip".toList, some ["README.md".toList]⟩,
       ⟨⟨"M".toList, "1.0.0".toList, []⟩, none, "db/m.zip".toList, some ["M/".toList]⟩] =
    none := by decide

/-! ## `analyzer.py`: per-library analysis -/

/-- One archive member as the analyzer sees it: its path and the result of
decoding its bytes (`Analyzer.stringify_file_in_archive`, which wraps the
external `chardet` guesser: `some` the decoded text, `none` a decode
failure). -/
structure ZipEntry where
  path : Str
  text : Option Str
deriving DecidableEq, Repr

/-- `Analyzer.stringify_file_in_archive` on the modelled archive: look the
member up by name and return its decode result. -/
def stringify_file_in_archive (entries : List ZipEntry) (filename : Str) : Option Str :=
  match entries.find? (fun e => e.path == filename) with
  | some e => e.text
  | none => none

/-- `s[s.find('/examples/') + len('/examples/'):]`: drop everything up to and
including the first occurrence of `/examples/` (the sketches this is applied
to always contain that marker). -/
def dropThroughExamples : Str → Str
  | [] => []
  | c :: rest =>
    if (c :: rest).take 10 = "/examples/".toList then (c :: rest).drop 10
    else dropThroughExamples rest

/-- The example-name computation in `Analyzer.get_headers_in_examples`:
take the path after `/examples/` and drop the sketch file name
(`'/'.join(example_name.split('/')[:-1])`). -/
def exampleNameOf (s : Str) : Str :=
  List.intercalate "/".toList ((splitOnChar '/' (dropThroughExamples s)).dropLast)

/-- The per-sketch loop of `Analyzer.get_headers_in_examples`, threading
`(is_failed, res, n_failed_example_sketches delta)`: a decode failure bumps
the failure count and sets the flag, a decoded sketch contributes
`(example_name, included headers)`. -/
def examplesLoop (entries : List ZipEntry) :
    List Str → Bool × List (Str × List Str) × Nat → Bool × List (Str × List Str) × Nat
  | [], acc => acc
  | s :: rest, (isFailed, res, nFail) =>
    match stringify_file_in_archive entries s with
    | none => examplesLoop entries rest (true, res, nFail + 1)
    | some text =>
      examplesLoop entries rest
        (isFailed, res ++ [(exampleNameOf s, get_included_headers_from_source_code text)], nFail)

/-- `Analyzer.get_headers_in_examples`: returns
`(is_ok, res, n_example_sketches delta, n_failed_example_sketches delta)`.
The two counter deltas model the `self.n_example_sketches` /
`self.n_failed_example_sketches` mutations performed inside the Python
method; a `BadZipFile` returns `(False, [])` with no counter change. -/
def get_headers_in_examples (archive : Option (List ZipEntry)) :
    Bool × List (Str × List Str) × Nat × Nat :=
  match archive with
  | none => (false, [], 0, 0)
  | some entries =>
    let sketches := get_example_sketches (entries.map (fun e => e.path))
    let (isFailed, res, nFail) := examplesLoop entries sketches (false, [], 0)
    (!isFailed, res, sketches.length, nFail)

/-- The mutable state of `Analyzer` + `Database` touched by `find_headers`:
the header dictionary, the feature database and the four counters. -/
structure AnalyzerState where
  header_dict : List (Str × List Str)
  feature_data : FeatureDatabase
  n_libraries : Nat
  n_failed_libraries : Nat
  n_example_sketches : Nat
  n_failed_example_sketches : Nat
deriving Repr

instance : DecidableEq AnalyzerState := fun a b =>
  decidable_of_iff
    (a.header_dict = b.header_dict ∧ a.feature_data = b.feature_data ∧
      a.n_libraries = b.n_libraries ∧ a.n_failed_libraries = b.n_failed_libraries ∧
      a.n_example_sketches = b.n_example_sketches ∧
      a.n_failed_example_sketches = b.n_failed_example_sketches)
    (by cases a; cases b; simp)

/-- One locally present library variant together with its archive
(`none` models a `BadZipFile`). -/
structure LibraryJob where
  info : LibraryInfo
  archive : Option (List ZipEntry)
deriving DecidableEq, Repr

/-- The body of the `for lib_info in ...get_library_info_list()` loop of
`Analyzer.find_headers`: a failed header analysis only bumps
`n_failed_libraries`; otherwise the header-dictionary entries are added, the
examples are analysed (an example-analysis failure *also* bumps
`n_failed_libraries`), and every decoded example's fingerprint — the
intersection `set(headers) & set(example_headers)`, modelled
membership-faithfully by filtering `headers` — is written to the feature
database. -/
def processLibrary (st : AnalyzerState) (job : LibraryJob) : AnalyzerState :=
  match get_headers_for_library (job.archive.map (List.map ZipEntry.path)) with
  | none => { st with n_failed_libraries := st.n_failed_libraries + 1 }
  | some headers =>
    let hd := add_header_dictionary_entry st.header_dict job.info headers
    let r := get_headers_in_examples job.archive
    let fd := r.2.1.foldl (fun fd p =>
      fd.add_entry job.info.name job.info.version p.1
        (headers.filter (fun h => decide (h ∈ p.2)))) st.feature_data
    { st with
      header_dict := hd
      feature_data := fd
      n_failed_libraries := if r.1 then st.n_failed_libraries else st.n_failed_libraries + 1
      n_example_sketches := st.n_example_sketches + r.2.2.1
      n_failed_example_sketches := st.n_failed_example_sketches + r.2.2.2 }

/-- `Analyzer.find_headers`: reset `n_libraries`, `n_example_sketches` and
`n_failed_libraries` (but not `n_failed_example_sketches`), then process
every locally present library in order. -/
def find_headers (st : AnalyzerState) (jobs : List LibraryJob) : AnalyzerState :=
  jobs.foldl processLibrary
    { st with
      n_libraries := jobs.length
      n_example_sketches := 0
      n_failed_libraries := 0 }

example :
    (find_headers ⟨[], ⟨[]⟩, 0, 0, 0, 0⟩
      [⟨⟨"L".toList, "1.0.0".toList, []⟩,
        some [⟨"L/".toList, none⟩, ⟨"L/src/L.h".toList, none⟩,
          ⟨"L/examples/Blink/Blink.ino".toList,
            some "#include <L.h>\n#include <X.h>".toList⟩]⟩]).feature_data.lookup
      "L".toList "1.0.0".toList "Blink".toList = some ["L.h".toList] := by decide
example :
    (find_headers ⟨[], ⟨[]⟩, 0, 0, 0, 0⟩
      [⟨⟨"L".toList, "1.0.0".toList, []⟩,
        some [⟨"L/src/L.h".toList, none⟩,
          ⟨"L/examples/Bad/Bad.ino".toList, none⟩,
          ⟨"L/examples/Good/Good.ino".toList, some "#include <L.h>".toList⟩]⟩]).n_failed_libraries
      = 1 := by decide

/-! ## Claim C1 -/

/-- C1: the claim says that with no example filter and the ALL version
policy, `compute_extract_targets` returns every locally present
`(name, version)` library as an extraction target.  The code does not:
`variant_bucket` is only populated under
`if version_flag != Database.ALL_VERSIONS:`, so under the ALL policy the
function returns the empty list for *every* input — every locally present
library is discarded. -/
theorem C1_all_versions_returns_empty (infoList : List LibraryInfo)
    (examplesList : Option (List (List Str))) :
    compute_extract_targets infoList examplesList VersionFlag.allVersions = [] := rfl

/-! ## Claim C8 -/

/-- C8: when at least one `*/src/*.h(pp)` entry exists, `get_headers_for_library`
returns exactly the basenames of those src-directory entries (the root
directory is never consulted), and when neither pattern matches it returns an
empty sequence (`some []`), not the failure marker `none`. -/
theorem C8_header_locator_precedence (filenames : List Str) :
    (filenames.filter srcHeaderMatch ≠ [] →
      get_headers_for_library (some filenames) =
        some ((filenames.filter srcHeaderMatch).map pathName)) ∧
    (filenames.filter srcHeaderMatch = [] → filenames.filter rootHeaderMatch = [] →
      get_headers_for_library (some filenames) = some []) := by
  constructor
  · intro h
    have hlen : 0 < ((filenames.filter srcHeaderMatch).map pathName).length := by
      rw [List.length_map]
      exact List.length_pos.mpr h
    simp only [get_headers_for_library, if_pos hlen]
  · intro h1 h2
    simp [get_headers_for_library, h1, h2]

/-- C8 witness: both parts applied at concrete archives. -/
theorem C8_header_locator_precedence_witness :
    get_headers_for_library (some ["Lib/src/A.h".toList, "Lib/B.h".toList]) =
      some (((["Lib/src/A.h".toList, "Lib/B.h".toList] : List Str).filter
        srcHeaderMatch).map pathName) ∧
    get_headers_for_library (some ["Lib/readme.txt".toList]) = some [] :=
  ⟨(C8_header_locator_precedence ["Lib/src/A.h".toList, "Lib/B.h".toList]).1 (by decide),
   (C8_header_locator_precedence ["Lib/readme.txt".toList]).2 (by decide) (by decide)⟩

/-! ## Claim C2 -/

/-- Helper for C2: if any target of the batch has a `BadZipFile` archive or
an archive without a root-directory candidate, the whole loop returns `none`,
regardless of the rows already resolved. -/
theorem extractLoop_eq_none_of_bad (storageRoot : Str) (t : ExtractTarget) :
    ∀ (targets : List ExtractTarget) (res : List ExtractRow), t ∈ targets →
      (∀ names, t.archive = some names → find_archive_root names = none) →
      extractLoop storageRoot res targets = none := by
  intro targets
  induction targets with
  | nil => intro res h; exact absurd h (List.not_mem_nil t)
  | cons hd tl ih =>
    intro res hmem hbad
    rcases List.mem_cons.mp hmem with heq | htl
    · subst heq
      match harch : t.archive with
      | none => simp [extractLoop, harch]
      | some names =>
        have := hbad names harch
        simp [extractLoop, harch, this]
    · match harch : hd.archive with
      | none => simp [extractLoop, harch]
      | some names =>
        match hroot : find_archive_root names with
        | none => simp [extractLoop, harch, hroot]
        | some root =>
          simp only [extractLoop, harch, hroot]
          exact ih _ htl hbad

/-- C2 (amended): a target whose archive has zero root-directory candidates
is a hard failure for the *whole* resolution: `get_example_sketches_to_extract`
returns `None` for the entire batch, discarding the targets already resolved
and never reaching the remaining ones — not a per-target skip. -/
theorem C2_zero_roots_aborts_whole_resolution (storageRoot : Str)
    (targets : List ExtractTarget) (t : ExtractTarget) (names : List Str)
    (hmem : t ∈ targets) (harch : t.archive = some names)
    (hroot : find_archive_root names = none) :
    get_example_sketches_to_extract storageRoot targets = none :=
  extractLoop_eq_none_of_bad storageRoot t targets [] hmem
    (fun ns hns => by rw [harch] at hns; cases hns; exact hroot)

/-- C2 witness for the amended claim, at a concrete two-target batch. -/
theorem C2_zero_roots_aborts_whole_resolution_witness :
    get_example_sketches_to_extract "db".toList
      [⟨⟨"L".toList, "1.0.0".toList, []⟩, none, "db/l.zip".toList,
        some ["README.md".toList]⟩,
       ⟨⟨"M".toList, "1.0.0".toList, []⟩, none, "db/m.zip".toList,
        some ["M/".toList, "M/examples/B/B.ino".toList]⟩] = none :=
  C2_zero_roots_aborts_whole_resolution "db".toList _
    ⟨⟨"L".toList, "1.0.0".toList, []⟩, none, "db/l.zip".toList, some ["README.md".toList]⟩
    ["README.md".toList] (by decide) rfl (by decide)

/-- C2 counterexample to the claim as stated: in a batch whose first target
has no root candidate and whose second target is fine, the code returns
`None` for the whole run — whereas resolving the second target alone
succeeds, so the failure is manifestly not confined to the one bad target. -/
theorem C2_counterexample_batch_not_continued :
    get_example_sketches_to_extract "db".toList
      [⟨⟨"A".toList, "2.0.0".toList, []⟩, none, "db/a.zip".toList,
        some ["notes.txt".toList]⟩,
       ⟨⟨"B".toList, "3.0.0".toList, []⟩, none, "db/b.zip".toList,
        some ["B/".toList, "B/examples/Go/Go.ino".toList]⟩] = none ∧
    get_example_sketches_to_extract "db".toList
      [⟨⟨"B".toList, "3.0.0".toList, []⟩, none, "db/b.zip".toList,
        some ["B/".toList, "B/examples/Go/Go.ino".toList]⟩] =
      some [(["Go/Go.ino".toList], "B".toList, "3.0.0".toList,
        "b.zip".toList, "B".toList)] := by decide

/-! ## Claim C5 -/

/-- Lookup success implies membership (no well-formedness needed). -/
theorem dictGet_mem {β : Type} {d : List (Str × β)} {k : Str} {v : β}
    (h : dictGet d k = some v) : (k, v) ∈ d := by
  induction d with
  | nil => simp [dictGet] at h
  | cons hd tl ih =>
    obtain ⟨k', v'⟩ := hd
    by_cases hk : k' = k
    · subst hk
      simp [dictGet] at h
      simp [h]
    · simp [dictGet, hk] at h
      exact List.mem_cons_of_mem _ (ih h)

/-- On a duplicate-free key list, membership determines the lookup. -/
theorem mem_dictGet {β : Type} {d : List (Str × β)}
    (hnd : (d.map Prod.fst).Nodup) {k : Str} {v : β} (h : (k, v) ∈ d) :
    dictGet d k = some v := by
  induction d with
  | nil => simp at h
  | cons hd tl ih =>
    obtain ⟨k', v'⟩ := hd
    simp only [List.map_cons, List.nodup_cons] at hnd
    rcases List.mem_cons.mp h with heq | htl
    · cases heq
      simp [dictGet]
    · have hne : k' ≠ k := by
        intro hkk
        subst hkk
        exact hnd.1 (List.mem_map.mpr ⟨(k', v), htl, rfl⟩)
      simp only [dictGet, if_neg hne]
      exact ih hnd.2 htl

/-- The states the feature database can actually be in: duplicate-free keys
at each of the three dictionary levels (Python dicts cannot hold a key
twice; `add_entry` preserves this). -/
abbrev FDWF (db : FeatureDatabase) : Prop :=
  (db.libraries.map Prod.fst).Nodup ∧
  ∀ p ∈ db.libraries, (p.2.map Prod.fst).Nodup ∧ ∀ q ∈ p.2, (q.2.map Prod.fst).Nodup

/-- C5: `search_all_for_headers` returns a recorded `(name, version, example)`
triple exactly when that example's recorded fingerprint is nonempty and a
subset of the queried header set; in particular an example recorded with an
empty fingerprint is never returned, whatever the query set. -/
theorem C5_search_all_for_headers_iff (db : FeatureDatabase) (hwf : FDWF db)
    (headers : List Str) (n v e : Str) :
    ((n, v, e) ∈ db.search_all_for_headers headers ↔
      ∃ hs, db.lookup n v e = some hs ∧ hs ≠ [] ∧ ∀ h ∈ hs, h ∈ headers) ∧
    (db.lookup n v e = some [] → (n, v, e) ∉ db.search_all_for_headers headers) := by
  have hiff : (n, v, e) ∈ db.search_all_for_headers headers ↔
      ∃ hs, db.lookup n v e = some hs ∧ hs ≠ [] ∧ ∀ h ∈ hs, h ∈ headers := by
    constructor
    · intro hmem
      simp only [FeatureDatabase.search_all_for_headers, List.mem_flatMap, List.mem_map,
        List.mem_filter] at hmem
      obtain ⟨nv, hnv, vf, hvf, ex, ⟨hex, hcond⟩, heq⟩ := hmem
      rw [Prod.mk.injEq, Prod.mk.injEq] at heq
      obtain ⟨he1, he2, he3⟩ := heq
      simp only [Bool.and_eq_true, Bool.not_eq_true', beq_eq_false_iff_ne, ne_eq,
        List.all_eq_true, decide_eq_true_eq] at hcond
      have h1 : dictGet db.libraries n = some nv.2 := by
        apply mem_dictGet hwf.1
        rw [← he1]
        exact (Prod.mk.eta (p := nv)) ▸ hnv
      have h2 : dictGet nv.2 v = some vf.2 := by
        apply mem_dictGet (hwf.2 nv hnv).1
        rw [← he2]
        exact (Prod.mk.eta (p := vf)) ▸ hvf
      have h3 : dictGet vf.2 e = some ex.2 := by
        apply mem_dictGet ((hwf.2 nv hnv).2 vf hvf)
        rw [← he3]
        exact (Prod.mk.eta (p := ex)) ▸ hex
      exact ⟨ex.2, by simp [FeatureDatabase.lookup, h1, h2, h3], hcond.1, hcond.2⟩
    · rintro ⟨hs, hlook, hne, hsub⟩
      simp only [FeatureDatabase.lookup, Option.bind_eq_some] at hlook
      obtain ⟨variants, h1, fe, h2, h3⟩ := hlook
      simp only [FeatureDatabase.search_all_for_headers, List.mem_flatMap, List.mem_map,
        List.mem_filter]
      refine ⟨(n, variants), dictGet_mem h1, (v, fe), dictGet_mem h2, (e, hs),
        ⟨dictGet_mem h3, ?_⟩, rfl⟩
      simp only [Bool.and_eq_true, Bool.not_eq_true', beq_eq_false_iff_ne, ne_eq,
        List.all_eq_true, decide_eq_true_eq]
      exact ⟨hne, hsub⟩
  exact ⟨hiff, fun hempty hmem => by
    obtain ⟨hs, hhs, hne, _⟩ := hiff.mp hmem
    rw [hempty] at hhs
    exact hne (Option.some.injEq .. ▸ hhs.symm)⟩

/-- C5 witness: at a concrete database holding one example with fingerprint
`[A.h]` and one with an empty fingerprint, the first is found by a superset
query and the empty one is not found even by that query. -/
theorem C5_search_all_for_headers_iff_witness :
    (("lib".toList, "1.0.0".toList, "ex".toList) ∈
      FeatureDatabase.search_all_for_headers
        ⟨[("lib".toList, [("1.0.0".toList,
          [("ex".toList, ["A.h".toList]), ("empty".toList, [])])])]⟩
        ["A.h".toList, "B.h".toList]) ∧
    (("lib".toList, "1.0.0".toList, "empty".toList) ∉
      FeatureDatabase.search_all_for_headers
        ⟨[("lib".toList, [("1.0.0".toList,
          [("ex".toList, ["A.h".toList]), ("empty".toList, [])])])]⟩
        ["A.h".toList, "B.h".toList]) :=
  ⟨(C5_search_all_for_headers_iff _ (by decide) ["A.h".toList, "B.h".toList] _ _ _).1.mpr
      ⟨["A.h".toList], by decide, by decide, by decide⟩,
   (C5_search_all_for_headers_iff _ (by decide) ["A.h".toList, "B.h".toList] _ _ _).2
      (by decide)⟩

/-! ## Claim C10 -/

theorem dictGet_dictSet_self {β : Type} (d : List (Str × β)) (k : Str) (v : β) :
    dictGet (dictSet d k v) k = some v := by
  induction d with
  | nil => simp [dictGet, dictSet]
  | cons hd tl ih =>
    obtain ⟨k', v'⟩ := hd
    by_cases hk : k' = k
    · subst hk
      simp [dictGet, dictSet]
    · simp [dictGet, dictSet, hk, ih]

theorem dictGet_dictSet_ne {β : Type} (d : List (Str × β)) {k k' : Str} (v : β)
    (hne : k ≠ k') : dictGet (dictSet d k v) k' = dictGet d k' := by
  induction d with
  | nil => simp [dictGet, dictSet, hne]
  | cons hd tl ih =>
    obtain ⟨k0, v0⟩ := hd
    by_cases hk : k0 = k
    · subst hk
      simp [dictGet, dictSet, hne]
    · simp only [dictSet, if_neg hk, dictGet]
      by_cases hk' : k0 = k'
      · simp [hk']
      · simp [hk', ih]

/-- Re-storing the value a key already holds leaves the dict unchanged. -/
theorem dictSet_get_same {β : Type} {d : List (Str × β)} {k : Str} {v : β}
    (h : dictGet d k = some v) : dictSet d k v = d := by
  induction d with
  | nil => simp [dictGet] at h
  | cons hd tl ih =>
    obtain ⟨k', v'⟩ := hd
    by_cases hk : k' = k
    · subst hk
      simp [dictGet] at h
      simp [dictSet, h]
    · simp only [dictGet, if_neg hk] at h
      simp [dictSet, hk, ih h]

/-- Every entry of an updated dict is an old entry or the new binding. -/
theorem mem_dictSet {β : Type} {d : List (Str × β)} {k : Str} {v : β} {p : Str × β}
    (h : p ∈ dictSet d k v) : p ∈ d ∨ p = (k, v) := by
  induction d with
  | nil => simp [dictSet] at h; simp [h]
  | cons hd tl ih =>
    obtain ⟨k', v'⟩ := hd
    by_cases hk : k' = k
    · subst hk
      simp only [dictSet, if_pos rfl] at h
      rcases List.mem_cons.mp h with heq | htl
      · exact Or.inr heq
      · exact Or.inl (List.mem_cons_of_mem _ htl)
    · simp only [dictSet, if_neg hk] at h
      rcases List.mem_cons.mp h with heq | htl
      · exact Or.inl (heq ▸ List.mem_cons_self _ _)
      · rcases ih htl with h1 | h2
        · exact Or.inl (List.mem_cons_of_mem _ h1)
        · exact Or.inr h2

/-- The added element is a member of the updated set. -/
theorem mem_setAdd_self (s : List Str) (x : Str) : x ∈ setAdd s x := by
  unfold setAdd
  split
  · assumption
  · exact List.mem_append_right _ (List.mem_singleton.mpr rfl)

/-- If every header of the batch already has a candidate set containing the
library's key string, `add_header_dictionary_entry` is a no-op. -/
theorem add_header_dictionary_entry_noop (info : LibraryInfo) :
    ∀ (headers : List Str) (hd : List (Str × List Str)),
      (∀ h ∈ headers, ∃ s, dictGet hd h = some s ∧ libKeyStr info ∈ s) →
      add_header_dictionary_entry hd info headers = hd := by
  intro headers
  induction headers with
  | nil => intro hd _; rfl
  | cons h0 t ih =>
    intro hd hall
    obtain ⟨s, hs, hmem⟩ := hall h0 (List.mem_cons_self _ _)
    have hstep : add_header_dictionary_entry hd info (h0 :: t) =
        add_header_dictionary_entry hd info t := by
      simp only [add_header_dictionary_entry, List.foldl_cons, hs, setAdd, if_pos hmem,
        dictSet_get_same hs]
    rw [hstep]
    exact ih hd (fun h hh => hall h (List.mem_cons_of_mem _ hh))

/-- The fold of `add_header_dictionary_entry` never removes the library's key
string from a candidate set it is already in. -/
theorem add_header_dictionary_entry_mono (info : LibraryInfo) :
    ∀ (headers : List Str) (hd : List (Str × List Str)) (h : Str) (s : List Str),
      dictGet hd h = some s → libKeyStr info ∈ s →
      ∃ s', dictGet (add_header_dictionary_entry hd info headers) h = some s' ∧
        libKeyStr info ∈ s' := by
  intro headers
  induction headers with
  | nil => intro hd h s hget hmem; exact ⟨s, hget, hmem⟩
  | cons h0 t ih =>
    intro hd h s hget hmem
    by_cases hk : h0 = h
    · subst hk
      rcases t0 : dictGet hd h0 with _ | s0
      · rw [t0] at hget; cases hget
      · rw [t0] at hget
        cases hget
        refine ih _ h0 (setAdd s (libKeyStr info)) ?_ (mem_setAdd_self s _)
        simp only [add_header_dictionary_entry, List.foldl_cons, t0]
        exact dictGet_dictSet_self _ _ _
    · rcases t0 : dictGet hd h0 with _ | s0 <;>
        · refine ih _ h s ?_ hmem
          simp only [add_header_dictionary_entry, List.foldl_cons, t0]
          rw [dictGet_dictSet_ne _ _ hk]
          exact hget

/-- After `add_header_dictionary_entry`, every header of the batch has a
candidate set containing the library's key string. -/
theorem add_header_dictionary_entry_ensures (info : LibraryInfo) :
    ∀ (headers : List Str) (hd : List (Str × List Str)) (h : Str), h ∈ headers →
      ∃ s, dictGet (add_header_dictionary_entry hd info headers) h = some s ∧
        libKeyStr info ∈ s := by
  intro headers
  induction headers with
  | nil => intro hd h hmem; simp at hmem
  | cons h0 t ih =>
    intro hd h hmem
    rcases List.mem_cons.mp hmem with heq | htl
    · subst heq
      rcases t0 : dictGet hd h with _ | s0
      · refine add_header_dictionary_entry_mono info t _ h [libKeyStr info] ?_
          (List.mem_singleton.mpr rfl)
        simp only [add_header_dictionary_entry, List.foldl_cons, t0]
        exact dictGet_dictSet_self _ _ _
      · refine add_header_dictionary_entry_mono info t _ h (setAdd s0 (libKeyStr info)) ?_
          (mem_setAdd_self s0 _)
        simp only [add_header_dictionary_entry, List.foldl_cons, t0]
        exact dictGet_dictSet_self _ _ _
    · rcases t0 : dictGet hd h0 with _ | s0 <;>
        · have := ih (add_header_dictionary_entry hd info [h0]) h htl
          simpa only [add_header_dictionary_entry, List.foldl_cons, List.foldl_nil] using this

theorem splitOnChar_not_mem (sep : Char) :
    ∀ x : Str, sep ∉ x → splitOnChar sep x = [x] := by
  intro x
  induction x with
  | nil => intro _; rfl
  | cons c rest ih =>
    intro hx
    have hc : c ≠ sep := fun h => hx (h ▸ List.mem_cons_self _ _)
    have hrest : sep ∉ rest := fun h => hx (List.mem_cons_of_mem _ h)
    simp only [splitOnChar, ih hrest, if_neg hc]

theorem splitOnChar_ne_nil (sep : Char) : ∀ l : Str, ∃ h t, splitOnChar sep l = h :: t := by
  intro l
  cases l with
  | nil => exact ⟨[], [], rfl⟩
  | cons c rest =>
    rcases hr : splitOnChar sep rest with _ | ⟨h, t⟩
    · exact ⟨[c], [], by simp [splitOnChar, hr]⟩
    · by_cases hc : c = sep
      · exact ⟨[], h :: t, by simp [splitOnChar, hr, hc]⟩
      · exact ⟨c :: h, t, by simp [splitOnChar, hr, hc]⟩

theorem splitOnChar_sep_append (sep : Char) :
    ∀ x y : Str, sep ∉ x → splitOnChar sep (x ++ sep :: y) = x :: splitOnChar sep y := by
  intro x
  induction x with
  | nil =>
    intro y _
    obtain ⟨h, t, heq⟩ := splitOnChar_ne_nil sep y
    simp [splitOnChar, heq]
  | cons a x' ih =>
    intro y hx
    have ha : a ≠ sep := fun h => hx (h ▸ List.mem_cons_self _ _)
    have hx' : sep ∉ x' := fun h => hx (List.mem_cons_of_mem _ h)
    have hmain := ih y hx'
    obtain ⟨h, t, heq⟩ := splitOnChar_ne_nil sep y
    rw [heq] at hmain
    simp only [List.cons_append, splitOnChar]
    rw [show List.append x' (sep :: y) = x' ++ sep :: y from rfl, hmain, heq]
    simp [ha]

/-- Splitting a single-newline string recovers its two halves. -/
theorem splitOnChar_newline_join (x y : Str) (hx : '\n' ∉ x) (hy : '\n' ∉ y) :
    splitOnChar '\n' (x ++ '\n' :: y) = [x, y] := by
  rw [splitOnChar_sep_append '\n' x y hx, splitOnChar_not_mem '\n' y hy]

/-- `setAdd` keeps a set duplicate-free. -/
theorem setAdd_nodup {s : List Str} (h : s.Nodup) (x : Str) : (setAdd s x).Nodup := by
  unfold setAdd
  split
  · exact h
  · refine List.Nodup.append h (List.nodup_singleton x) ?_
    intro a ha hax
    rw [List.mem_singleton] at hax
    subst hax
    exact absurd ha (by assumption)

/-- The states the header dictionary can actually be in: every candidate set
is duplicate-free (a Python `set`) and every stored string is a
`name\nversion` join with newline-free halves. -/
def HeaderDictInv (hd : List (Str × List Str)) : Prop :=
  ∀ p ∈ hd, p.2.Nodup ∧
    ∀ s ∈ p.2, ∃ x y, ('\n' ∉ x) ∧ ('\n' ∉ y) ∧ s = x ++ '\n' :: y

/-- `add_header_dictionary_entry` preserves the header-dictionary invariant
when the added library's name and version are newline-free. -/
theorem HeaderDictInv_add (info : LibraryInfo) (hn : '\n' ∉ info.name)
    (hv : '\n' ∉ info.version) :
    ∀ (headers : List Str) (hd : List (Str × List Str)), HeaderDictInv hd →
      HeaderDictInv (add_header_dictionary_entry hd info headers) := by
  intro headers
  induction headers with
  | nil => intro hd hinv; exact hinv
  | cons h0 t ih =>
    intro hd hinv
    have hkey : ∃ x y, ('\n' ∉ x) ∧ ('\n' ∉ y) ∧ libKeyStr info = x ++ '\n' :: y :=
      ⟨info.name, info.version, hn, hv, rfl⟩
    have hstep : HeaderDictInv (add_header_dictionary_entry hd info [h0]) := by
      intro p hp
      rcases t0 : dictGet hd h0 with _ | s0 <;>
        simp only [add_header_dictionary_entry, List.foldl_cons, t0, List.foldl_nil] at hp
      · rcases mem_dictSet hp with hold | hnew
        · exact hinv p hold
        · subst hnew
          refine ⟨List.nodup_singleton _, ?_⟩
          intro s hs
          rw [List.mem_singleton] at hs
          exact hs ▸ hkey
      · rcases mem_dictSet hp with hold | hnew
        · exact hinv p hold
        · subst hnew
          have hmem0 := dictGet_mem t0
          obtain ⟨hnd0, hcl0⟩ := hinv _ hmem0
          refine ⟨setAdd_nodup hnd0 _, ?_⟩
          intro s hs
          unfold setAdd at hs
          split at hs
          · exact hcl0 s hs
          · rcases List.mem_append.mp hs with h1 | h2
            · exact hcl0 s h1
            · rw [List.mem_singleton] at h2
              exact h2 ▸ hkey
    have := ih (add_header_dictionary_entry hd info [h0]) hstep
    simpa only [add_header_dictionary_entry, List.foldl_cons, List.foldl_nil] using this

/-- C10 (claim): for a library identity with newline-free name and version,
`add_header_dictionary_entry` is idempotent — any positive number of repeats
of the same call equals a single call — and afterwards `Database.search`
returns a duplicate-free list, i.e. each distinct `(name, version)` pair at
most once, on any dictionary state satisfying the header-dictionary
invariant (which all reachable states do). -/
theorem C10_add_header_dictionary_entry_idempotent (hd : List (Str × List Str))
    (info : LibraryInfo) (headers : List Str)
    (hn : '\n' ∉ info.name) (hv : '\n' ∉ info.version) (hinv : HeaderDictInv hd) :
    (∀ n, 1 ≤ n →
      (fun d => add_header_dictionary_entry d info headers)^[n] hd =
        add_header_dictionary_entry hd info headers) ∧
    ∀ h, (headerDictSearch (add_header_dictionary_entry hd info headers) h).Nodup := by
  constructor
  · have hidem : add_header_dictionary_entry (add_header_dictionary_entry hd info headers)
        info headers = add_header_dictionary_entry hd info headers :=
      add_header_dictionary_entry_noop info headers _
        (fun h hh => add_header_dictionary_entry_ensures info headers hd h hh)
    intro n hn1
    induction n with
    | zero => omega
    | succ m ihm =>
      rcases Nat.eq_or_lt_of_le hn1 with h1 | h2
      · rw [← h1]
        rfl
      · rw [Function.iterate_succ_apply', ihm (by omega)]
        exact hidem
  · intro h
    have hinv' : HeaderDictInv (add_header_dictionary_entry hd info headers) :=
      HeaderDictInv_add info hn hv headers hd hinv
    unfold headerDictSearch
    rcases hg : dictGet (add_header_dictionary_entry hd info headers) h with _ | libs
    · exact List.nodup_nil
    · obtain ⟨hnd, hcl⟩ := hinv' _ (dictGet_mem hg)
      have hmap : (libs.map (fun l =>
          ((splitOnChar '\n' l).headD [], (splitOnChar '\n' l).tail.headD []))).Nodup := by
        refine hnd.map_on ?_
        intro a ha b hb hab
        obtain ⟨xa, ya, hxa, hya, rfl⟩ := hcl a ha
        obtain ⟨xb, yb, hxb, hyb, rfl⟩ := hcl b hb
        rw [splitOnChar_newline_join xa ya hxa hya,
          splitOnChar_newline_join xb yb hxb hyb] at hab
        simp only [List.headD, List.tail, Prod.mk.injEq] at hab
        rw [hab.1, hab.2]
      exact hmap

/-- C10 witness: three repetitions on the empty dictionary equal one call,
and the subsequent search finds the pair exactly once. -/
theorem C10_add_header_dictionary_entry_idempotent_witness :
    ((fun d => add_header_dictionary_entry d ⟨"N".toList, "1.0.0".toList, []⟩
        ["A.h".toList, "A.h".toList])^[3] [] =
      add_header_dictionary_entry [] ⟨"N".toList, "1.0.0".toList, []⟩
        ["A.h".toList, "A.h".toList]) ∧
    (headerDictSearch (add_header_dictionary_entry []
        ⟨"N".toList, "1.0.0".toList, []⟩ ["A.h".toList, "A.h".toList])
        "A.h".toList).Nodup :=
  ⟨(C10_add_header_dictionary_entry_idempotent [] ⟨"N".toList, "1.0.0".toList, []⟩
      ["A.h".toList, "A.h".toList] (by decide) (by decide)
      (fun p hp => absurd hp (List.not_mem_nil p))).1 3 (by omega),
   (C10_add_header_dictionary_entry_idempotent [] ⟨"N".toList, "1.0.0".toList, []⟩
      ["A.h".toList, "A.h".toList] (by decide) (by decide)
      (fun p hp => absurd hp (List.not_mem_nil p))).2 "A.h".toList⟩

/-! ## Claim C4 -/

/-- Looking a key up in a defaulted optional dict is a `bind`. -/
theorem dictGet_getD_bind {β : Type} (m : Option (List (Str × β))) (k : Str) :
    dictGet (m.getD []) k = m.bind (fun d => dictGet d k) := by
  cases m <;> simp [dictGet]

/-- How `add_entry` changes `lookup`: the written triple now holds the new
header list, every other triple is untouched. -/
theorem FeatureDatabase.lookup_add_entry (db : FeatureDatabase) (n v e : Str)
    (hs : List Str) (n' v' e' : Str) :
    (db.add_entry n v e hs).lookup n' v' e' =
      if n = n' ∧ v = v' ∧ e = e' then some hs else db.lookup n' v' e' := by
  unfold FeatureDatabase.add_entry FeatureDatabase.lookup
  by_cases hn : n = n'
  · subst hn
    rw [dictGet_dictSet_self, Option.some_bind]
    by_cases hv : v = v'
    · subst hv
      rw [dictGet_dictSet_self, Option.some_bind]
      by_cases he : e = e'
      · subst he
        rw [dictGet_dictSet_self, if_pos ⟨rfl, rfl, rfl⟩]
      · rw [dictGet_dictSet_ne _ _ he,
          if_neg (fun hc : n = n ∧ v = v ∧ e = e' => he hc.2.2),
          dictGet_getD_bind, dictGet_getD_bind, Option.bind_assoc]
    · rw [dictGet_dictSet_ne _ _ hv,
        if_neg (fun hc : n = n ∧ v = v' ∧ e = e' => hv hc.2.1),
        dictGet_getD_bind, Option.bind_assoc]
  · rw [dictGet_dictSet_ne _ _ hn,
      if_neg (fun hc : n = n' ∧ v = v' ∧ e = e' => hn hc.1)]

/-- Provenance through the per-library fingerprint-writing fold. -/
theorem lookup_writeFold (info : LibraryInfo) (headers : List Str) (n v e : Str)
    (fp : List Str) :
    ∀ (ehs : List (Str × List Str)) (fd0 : FeatureDatabase),
      ((ehs.foldl (fun fd p => fd.add_entry info.name info.version p.1
          (headers.filter (fun h => decide (h ∈ p.2)))) fd0).lookup n v e = some fp) →
      fd0.lookup n v e = some fp ∨
        ∃ p ∈ ehs, info.name = n ∧ info.version = v ∧ p.1 = e ∧
          fp = headers.filter (fun h => decide (h ∈ p.2)) := by
  intro ehs
  induction ehs with
  | nil => intro fd0 h; exact Or.inl h
  | cons p t ih =>
    intro fd0 h
    rw [List.foldl_cons] at h
    rcases ih _ h with h1 | ⟨q, hq, hrest⟩
    · rw [FeatureDatabase.lookup_add_entry] at h1
      split at h1
      · rename_i hcond
        rcases Option.some.injEq .. ▸ h1 with rfl
        exact Or.inr ⟨p, List.mem_cons_self _ _, hcond.1, hcond.2.1, hcond.2.2,
          (Option.some.injEq .. ▸ h1).symm⟩
      · exact Or.inl h1
    · exact Or.inr ⟨q, List.mem_cons_of_mem _ hq, hrest⟩

/-- Provenance through one library's processing step. -/
theorem processLibrary_lookup (st : AnalyzerState) (job : LibraryJob) (n v e : Str)
    (fp : List Str)
    (h : (processLibrary st job).feature_data.lookup n v e = some fp) :
    st.feature_data.lookup n v e = some fp ∨
    ∃ headers, get_headers_for_library (job.archive.map (List.map ZipEntry.path)) =
        some headers ∧ job.info.name = n ∧ job.info.version = v ∧
      ∃ eh, (e, eh) ∈ (get_headers_in_examples job.archive).2.1 ∧
        fp = headers.filter (fun x => decide (x ∈ eh)) := by
  unfold processLibrary at h
  rcases hga : get_headers_for_library (job.archive.map (List.map ZipEntry.path)) with
    _ | headers
  · rw [hga] at h
    exact Or.inl h
  · rw [hga] at h
    simp only at h
    rcases lookup_writeFold job.info headers n v e fp _ _ h with h1 | ⟨p, hp, h2, h3, h4, h5⟩
    · exact Or.inl h1
    · exact Or.inr ⟨headers, rfl, h2, h3, ⟨p.2, h4 ▸ (Prod.mk.eta (p := p)) ▸ hp, h5⟩⟩

/-- Provenance through the whole analysis pass. -/
theorem foldl_processLibrary_lookup (n v e : Str) (fp : List Str) :
    ∀ (jobs : List LibraryJob) (st0 : AnalyzerState),
      ((jobs.foldl processLibrary st0).feature_data.lookup n v e = some fp) →
      st0.feature_data.lookup n v e = some fp ∨
      ∃ job ∈ jobs, ∃ headers,
        get_headers_for_library (job.archive.map (List.map ZipEntry.path)) = some headers ∧
        job.info.name = n ∧ job.info.version = v ∧
        ∃ eh, (e, eh) ∈ (get_headers_in_examples job.archive).2.1 ∧
          fp = headers.filter (fun x => decide (x ∈ eh)) := by
  intro jobs
  induction jobs with
  | nil => intro st0 h; exact Or.inl h
  | cons j t ih =>
    intro st0 h
    rw [List.foldl_cons] at h
    rcases ih _ h with h1 | ⟨job, hjob, rest⟩
    · rcases processLibrary_lookup st0 j n v e fp h1 with h2 | ⟨headers, rest⟩
      · exact Or.inl h2
      · exact Or.inr ⟨j, List.mem_cons_self _ _, headers, rest⟩
    · exact Or.inr ⟨job, List.mem_cons_of_mem _ hjob, rest⟩

/-- C4: every fingerprint recorded by an analysis pass (`find_headers`) was
either already in the feature database before the pass, or was written for
one processed library variant with that identity and equals the intersection
of that example's included headers with the library's header inventory — so
it never contains a header outside the inventory. -/
theorem C4_fingerprint_subset_inventory (st : AnalyzerState) (jobs : List LibraryJob)
    (n v e : Str) (fp : List Str)
    (hlook : (find_headers st jobs).feature_data.lookup n v e = some fp) :
    st.feature_data.lookup n v e = some fp ∨
    ∃ job ∈ jobs, ∃ headers,
      get_headers_for_library (job.archive.map (List.map ZipEntry.path)) = some headers ∧
      job.info.name = n ∧ job.info.version = v ∧
      ∃ eh, (e, eh) ∈ (get_headers_in_examples job.archive).2.1 ∧
        fp = headers.filter (fun x => decide (x ∈ eh)) ∧ ∀ x ∈ fp, x ∈ headers := by
  unfold find_headers at hlook
  rcases foldl_processLibrary_lookup n v e fp jobs _ hlook with h1 | ⟨job, hjob, headers,
    hga, hn, hv, eh, heh, hfp⟩
  · exact Or.inl h1
  · refine Or.inr ⟨job, hjob, headers, hga, hn, hv, eh, heh, hfp, ?_⟩
    intro x hx
    rw [hfp] at hx
    exact (List.mem_filter.mp hx).1

/-- C4 witness: a concrete one-library pass, from an empty database; the
recorded fingerprint for `Blink` is exactly the inventory intersection. -/
theorem C4_fingerprint_subset_inventory_witness :
    (⟨[], ⟨[]⟩, 0, 0, 0, 0⟩ : AnalyzerState).feature_data.lookup
        "L".toList "1.0.0".toList "Blink".toList = some ["L.h".toList] ∨
    ∃ job ∈ [(⟨⟨"L".toList, "1.0.0".toList, []⟩,
        some [⟨"L/src/L.h".toList, none⟩,
          ⟨"L/examples/Blink/Blink.ino".toList,
            some "#include <L.h>\n#include <X.h>".toList⟩]⟩ : LibraryJob)],
      ∃ headers,
        get_headers_for_library (job.archive.map (List.map ZipEntry.path)) = some headers ∧
        job.info.name = "L".toList ∧ job.info.version = "1.0.0".toList ∧
        ∃ eh, ("Blink".toList, eh) ∈ (get_headers_in_examples job.archive).2.1 ∧
          ["L.h".toList] = headers.filter (fun x => decide (x ∈ eh)) ∧
          ∀ x ∈ ["L.h".toList], x ∈ headers :=
  C4_fingerprint_subset_inventory ⟨[], ⟨[]⟩, 0, 0, 0, 0⟩
    [⟨⟨"L".toList, "1.0.0".toList, []⟩,
      some [⟨"L/src/L.h".toList, none⟩,
        ⟨"L/examples/Blink/Blink.ino".toList,
          some "#include <L.h>\n#include <X.h>".toList⟩]⟩]
    "L".toList "1.0.0".toList "Blink".toList ["L.h".toList] (by decide)

/-! ## Claim C9 -/

/-- Closed form of the per-sketch loop: a decode failure sets the flag,
bumps the failure count and contributes nothing; every decoded sketch
contributes its `(example_name, included headers)` record, in order. -/
theorem examplesLoop_spec (entries : List ZipEntry) :
    ∀ (sketches : List Str) (isF : Bool) (res : List (Str × List Str)) (nf : Nat),
      examplesLoop entries sketches (isF, res, nf) =
        (isF || sketches.any (fun s => (stringify_file_in_archive entries s).isNone),
         res ++ sketches.filterMap (fun s => (stringify_file_in_archive entries s).map
           (fun text => (exampleNameOf s, get_included_headers_from_source_code text))),
         nf + (sketches.filter (fun s =>
           (stringify_file_in_archive entries s).isNone)).length) := by
  intro sketches
  induction sketches with
  | nil => intro isF res nf; simp [examplesLoop]
  | cons s t ih =>
    intro isF res nf
    rcases hs : stringify_file_in_archive entries s with _ | text
    · simp only [examplesLoop, hs, ih, List.any_cons, List.filterMap_cons, List.filter_cons,
        Option.isNone_none, Option.map_none]
      rw [Prod.mk.injEq, Prod.mk.injEq]
      refine ⟨by simp, by simp, by simp; omega⟩
    · simp only [examplesLoop, hs, ih, List.any_cons, List.filterMap_cons, List.filter_cons,
        Option.isNone_some, Option.map_some]
      rw [Prod.mk.injEq, Prod.mk.injEq]
      refine ⟨by simp, by simp, by simp⟩

/-- Closed form of `get_headers_in_examples` on a readable archive. -/
theorem get_headers_in_examples_some (entries : List ZipEntry) :
    get_headers_in_examples (some entries) =
      (!(get_example_sketches (entries.map (fun e => e.path))).any (fun s =>
          (stringify_file_in_archive entries s).isNone),
       (get_example_sketches (entries.map (fun e => e.path))).filterMap (fun s =>
          (stringify_file_in_archive entries s).map
            (fun text => (exampleNameOf s, get_included_headers_from_source_code text))),
       (get_example_sketches (entries.map (fun e => e.path))).length,
       ((get_example_sketches (entries.map (fun e => e.path))).filter (fun s =>
          (stringify_file_in_archive entries s).isNone)).length) := by
  simp only [get_headers_in_examples, examplesLoop_spec]
  simp

/-- C9 (amended): when the library's headers are found, a decode failure of
one example is confined to that example as far as the example records go —
the failing example is excluded from the records written, every decoded
example of the library is still processed and written, and
`n_failed_example_sketches` grows by exactly the number of failing examples —
but the library is ALSO counted as failed: `n_failed_libraries` grows by one
whenever at least one example fails to decode (the analysis of the library is
not aborted, yet the failure is counted at the library level too). -/
theorem C9_decode_failure_isolated (st : AnalyzerState) (job : LibraryJob)
    (entries : List ZipEntry) (headers : List Str)
    (harch : job.archive = some entries)
    (hga : get_headers_for_library (some (entries.map (fun e => e.path))) = some headers) :
    (processLibrary st job).n_failed_example_sketches =
        st.n_failed_example_sketches +
          ((get_example_sketches (entries.map (fun e => e.path))).filter (fun s =>
            (stringify_file_in_archive entries s).isNone)).length ∧
    (processLibrary st job).n_failed_libraries =
        st.n_failed_libraries +
          (if ((get_example_sketches (entries.map (fun e => e.path))).filter (fun s =>
              (stringify_file_in_archive entries s).isNone)).length = 0 then 0 else 1) ∧
    (processLibrary st job).feature_data =
      ((get_example_sketches (entries.map (fun e => e.path))).filterMap (fun s =>
          (stringify_file_in_archive entries s).map
            (fun text => (exampleNameOf s, get_included_headers_from_source_code text)))).foldl
        (fun fd p => fd.add_entry job.info.name job.info.version p.1
          (headers.filter (fun h => decide (h ∈ p.2)))) st.feature_data ∧
    (processLibrary st job).n_example_sketches =
        st.n_example_sketches + (get_example_sketches (entries.map (fun e => e.path))).length := by
  have hmap : job.archive.map (List.map ZipEntry.path) =
      some (entries.map (fun e => e.path)) := by
    rw [harch]
    rfl
  have hcnt : ((get_example_sketches (entries.map (fun e => e.path))).any (fun s =>
        (stringify_file_in_archive entries s).isNone)) = true ↔
      ((get_example_sketches (entries.map (fun e => e.path))).filter (fun s =>
        (stringify_file_in_archive entries s).isNone)).length ≠ 0 := by
    rw [List.any_eq_true]
    constructor
    · rintro ⟨a, ha, hpa⟩
      have hmemf : a ∈ (get_example_sketches (entries.map (fun e => e.path))).filter (fun s =>
          (stringify_file_in_archive entries s).isNone) := List.mem_filter.mpr ⟨ha, hpa⟩
      rw [Ne, List.length_eq_zero]
      exact List.ne_nil_of_mem hmemf
    · intro hlen
      rcases hf : (get_example_sketches (entries.map (fun e => e.path))).filter (fun s =>
          (stringify_file_in_archive entries s).isNone) with _ | ⟨a, t⟩
      · rw [hf] at hlen
        simp at hlen
      · have : a ∈ (get_example_sketches (entries.map (fun e => e.path))).filter (fun s =>
            (stringify_file_in_archive entries s).isNone) := by
          rw [hf]
          exact List.mem_cons_self _ _
        have := List.mem_filter.mp this
        exact ⟨a, this.1, this.2⟩
  unfold processLibrary
  rw [hmap, hga, harch]
  simp only [get_headers_in_examples_some]
  refine ⟨trivial, ?_, trivial, trivial⟩
  by_cases hz : ((get_example_sketches (entries.map (fun e => e.path))).filter (fun s =>
      (stringify_file_in_archive entries s).isNone)).length = 0
  · rw [if_pos hz]
    have hfalse : ((get_example_sketches (entries.map (fun e => e.path))).any (fun s =>
        (stringify_file_in_archive entries s).isNone)) = false := by
      rcases hb : (get_example_sketches (entries.map (fun e => e.path))).any (fun s =>
          (stringify_file_in_archive entries s).isNone) with _ | _
      · exact hb
      · exact absurd (hcnt.mp hb) (by simp [hz])
    rw [hfalse]
    rfl
  · rw [if_neg hz]
    have hb : ((get_example_sketches (entries.map (fun e => e.path))).any (fun s =>
        (stringify_file_in_archive entries s).isNone)) = true := hcnt.mpr hz
    rw [hb]
    rfl

/-- C9 counterexample to the claim as stated: a library with one undecodable
and one decodable example.  The decodable example's fingerprint is still
written, the failed one is excluded, the example-failure counter rises by
one — but `n_failed_libraries` rises to 1, although the claim says the
library itself is not counted as failed. -/
theorem C9_counterexample_library_counted_failed :
    (processLibrary ⟨[], ⟨[]⟩, 0, 0, 0, 0⟩
      ⟨⟨"L".toList, "1.0.0".toList, []⟩,
        some [⟨"L/src/L.h".toList, none⟩,
          ⟨"L/examples/Bad/Bad.ino".toList, none⟩,
          ⟨"L/examples/Good/Good.ino".toList,
            some "#include <L.h>".toList⟩]⟩).n_failed_libraries = 1 ∧
    (processLibrary ⟨[], ⟨[]⟩, 0, 0, 0, 0⟩
      ⟨⟨"L".toList, "1.0.0".toList, []⟩,
        some [⟨"L/src/L.h".toList, none⟩,
          ⟨"L/examples/Bad/Bad.ino".toList, none⟩,
          ⟨"L/examples/Good/Good.ino".toList,
            some "#include <L.h>".toList⟩]⟩).n_failed_example_sketches = 1 ∧
    (processLibrary ⟨[], ⟨[]⟩, 0, 0, 0, 0⟩
      ⟨⟨"L".toList, "1.0.0".toList, []⟩,
        some [⟨"L/src/L.h".toList, none⟩,
          ⟨"L/examples/Bad/Bad.ino".toList, none⟩,
          ⟨"L/examples/Good/Good.ino".toList,
            some "#include <L.h>".toList⟩]⟩).feature_data.lookup
      "L".toList "1.0.0".toList "Good".toList = some ["L.h".toList] ∧
    (processLibrary ⟨[], ⟨[]⟩, 0, 0, 0, 0⟩
      ⟨⟨"L".toList, "1.0.0".toList, []⟩,
        some [⟨"L/src/L.h".toList, none⟩,
          ⟨"L/examples/Bad/Bad.ino".toList, none⟩,
          ⟨"L/examples/Good/Good.ino".toList,
            some "#include <L.h>".toList⟩]⟩).feature_data.lookup
      "L".toList "1.0.0".toList "Bad".toList = none := by decide

/-- C9 witness: the amended theorem applied to a concrete library. -/
theorem C9_decode_failure_isolated_witness :
    (processLibrary ⟨[], ⟨[]⟩, 0, 0, 0, 0⟩
        ⟨⟨"M".toList, "1.0.0".toList, []⟩,
          some [⟨"M/src/M.h".toList, none⟩]⟩).n_failed_example_sketches =
        (⟨[], ⟨[]⟩, 0, 0, 0, 0⟩ : AnalyzerState).n_failed_example_sketches +
          ((get_example_sketches (([⟨"M/src/M.h".toList, none⟩] :
              List ZipEntry).map (fun e => e.path))).filter (fun s =>
            (stringify_file_in_archive [⟨"M/src/M.h".toList, none⟩] s).isNone)).length ∧
    (processLibrary ⟨[], ⟨[]⟩, 0, 0, 0, 0⟩
        ⟨⟨"M".toList, "1.0.0".toList, []⟩,
          some [⟨"M/src/M.h".toList, none⟩]⟩).n_failed_libraries =
        (⟨[], ⟨[]⟩, 0, 0, 0, 0⟩ : AnalyzerState).n_failed_libraries +
          (if ((get_example_sketches (([⟨"M/src/M.h".toList, none⟩] :
              List ZipEntry).map (fun e => e.path))).filter (fun s =>
            (stringify_file_in_archive [⟨"M/src/M.h".toList, none⟩] s).isNone)).length = 0
           then 0 else 1) ∧
    (processLibrary ⟨[], ⟨[]⟩, 0, 0, 0, 0⟩
        ⟨⟨"M".toList, "1.0.0".toList, []⟩,
          some [⟨"M/src/M.h".toList, none⟩]⟩).feature_data =
      ((get_example_sketches (([⟨"M/src/M.h".toList, none⟩] :
          List ZipEntry).map (fun e => e.path))).filterMap (fun s =>
          (stringify_file_in_archive [⟨"M/src/M.h".toList, none⟩] s).map
            (fun text => (exampleNameOf s, get_included_headers_from_source_code text)))).foldl
        (fun fd p => fd.add_entry "M".toList "1.0.0".toList p.1
          (["M.h".toList].filter (fun h => decide (h ∈ p.2))))
        (⟨[], ⟨[]⟩, 0, 0, 0, 0⟩ : AnalyzerState).feature_data ∧
    (processLibrary ⟨[], ⟨[]⟩, 0, 0, 0, 0⟩
        ⟨⟨"M".toList, "1.0.0".toList, []⟩,
          some [⟨"M/src/M.h".toList, none⟩]⟩).n_example_sketches =
        (⟨[], ⟨[]⟩, 0, 0, 0, 0⟩ : AnalyzerState).n_example_sketches +
          (get_example_sketches (([⟨"M/src/M.h".toList, none⟩] :
            List ZipEntry).map (fun e => e.path))).length :=
  C9_decode_failure_isolated ⟨[], ⟨[]⟩, 0, 0, 0, 0⟩
    ⟨⟨"M".toList, "1.0.0".toList, []⟩, some [⟨"M/src/M.h".toList, none⟩]⟩
    [⟨"M/src/M.h".toList, none⟩] ["M.h".toList] rfl (by decide)

/-! ## Claim C3 -/

/-- Dropping all but the last `t.length` elements yields `t` exactly when
`t` is a suffix reached by a head of the complementary length. -/
theorem drop_sub_length_eq_iff {s t : Str} (hle : t.length ≤ s.length) :
    s.drop (s.length - t.length) = t ↔
      ∃ x, s = x ++ t ∧ x.length = s.length - t.length := by
  constructor
  · intro h
    refine ⟨s.take (s.length - t.length), ?_, ?_⟩
    · nth_rewrite 2 [← h]
      exact (List.take_append_drop _ s).symm
    · rw [List.length_take]
      omega
  · rintro ⟨x, rfl, hx⟩
    have hxl : (x ++ t).length - t.length = x.length := by
      rw [List.length_append]
      omega
    rw [hxl, List.drop_left]

/-- The language of `.+[.](h|hpp)` (full match): a nonempty newline-free
stem followed by `.h` or `.hpp`. -/
theorem includeTargetMatch_iff (mid : Str) :
    includeTargetMatch mid = true ↔
      ∃ stem ext, stem ≠ [] ∧ ('\n' ∉ stem) ∧
        (ext = ".h".toList ∨ ext = ".hpp".toList) ∧ mid = stem ++ ext := by
  unfold includeTargetMatch
  simp only [Bool.and_eq_true, Bool.or_eq_true, beq_iff_eq, decide_eq_true_eq,
    List.elem_eq_mem, Bool.not_eq_eq_eq_not, Bool.not_true, decide_eq_false_iff_not]
  constructor
  · rintro ⟨hnl, hcase | hcase⟩
    · have hle : (".h".toList).length ≤ mid.length := by
        have h3 := hcase.2
        rw [show (".h".toList).length = 2 from rfl]
        omega
      obtain ⟨x, rfl, hx⟩ := (drop_sub_length_eq_iff hle).mp hcase.1
      refine ⟨x, ".h".toList, ?_, ?_, Or.inl rfl, rfl⟩
      · have h3 := hcase.2
        rw [List.length_append] at h3
        intro hx0
        subst hx0
        simp at h3
      · exact fun hmem => hnl (List.mem_append_left _ hmem)
    · have hle : (".hpp".toList).length ≤ mid.length := by
        have h5 := hcase.2
        rw [show (".hpp".toList).length = 4 from rfl]
        omega
      obtain ⟨x, rfl, hx⟩ := (drop_sub_length_eq_iff hle).mp hcase.1
      refine ⟨x, ".hpp".toList, ?_, ?_, Or.inr rfl, rfl⟩
      · have h5 := hcase.2
        rw [List.length_append] at h5
        intro hx0
        subst hx0
        simp at h5
      · exact fun hmem => hnl (List.mem_append_left _ hmem)
  · rintro ⟨stem, ext, hne, hnl, hext | hext, rfl⟩ <;> subst hext
    · refine ⟨?_, Or.inl ⟨?_, ?_⟩⟩
      · intro hmem
        rcases List.mem_append.mp hmem with h1 | h2
        · exact hnl h1
        · simp at h2
      · have hxl : (stem ++ ".h".toList).length - 2 = stem.length := by
          rw [List.length_append, show (".h".toList).length = 2 from rfl]
          omega
        rw [hxl, List.drop_left]
      · have := List.length_pos.mpr hne
        rw [List.length_append, show (".h".toList).length = 2 from rfl]
        omega
    · refine ⟨?_, Or.inr ⟨?_, ?_⟩⟩
      · intro hmem
        rcases List.mem_append.mp hmem with h1 | h2
        · exact hnl h1
        · simp at h2
      · have hxl : (stem ++ ".hpp".toList).length - 4 = stem.length := by
          rw [List.length_append, show (".hpp".toList).length = 4 from rfl]
          omega
        rw [hxl, List.drop_left]
      · have := List.length_pos.mpr hne
        rw [List.length_append, show (".hpp".toList).length = 4 from rfl]
        omega

/-- The (amended) shape of a recognised include line: an `#include ` header
between one opening delimiter (`"` or `<`) and one closing delimiter
(`"` or `>`), the two chosen independently, the header being a nonempty
newline-free stem plus `.h` or `.hpp`. -/
def IncludeDirectiveShape (line h : Str) : Prop :=
  ∃ d1 d2 stem ext, (d1 = '"' ∨ d1 = '<') ∧ (d2 = '"' ∨ d2 = '>') ∧
    stem ≠ [] ∧ ('\n' ∉ stem) ∧
    (ext = ".h".toList ∨ ext = ".hpp".toList) ∧ h = stem ++ ext ∧
    line = "#include ".toList ++ d1 :: (h ++ [d2])

/-- The include regex recognises a line and captures `h` exactly when the
line has the `IncludeDirectiveShape` decomposition. -/
theorem includeLineMatch_eq_some_iff (line h : Str) :
    includeLineMatch line = some h ↔ IncludeDirectiveShape line h := by
  constructor
  · intro hm
    unfold includeLineMatch at hm
    split at hm
    · rename_i htake
      split at hm
      · cases hm
      · rename_i d1 rest hdrop
        split at hm
        · rename_i hd1
          split at hm
          · cases hm
          · rename_i d2 hlast
            split at hm
            · rename_i hcond
              have hh : rest.dropLast = h := Option.some.inj hm
              have hne : rest ≠ [] := by
                intro h0
                rw [h0] at hlast
                simp at hlast
              have hd2 : rest.getLast hne = d2 := by
                rw [List.getLast?_eq_getLast rest hne] at hlast
                exact Option.some.inj hlast
              obtain ⟨stem, ext, hstem, hnl, hext, hmid⟩ :=
                (includeTargetMatch_iff rest.dropLast).mp hcond.2
              refine ⟨d1, d2, stem, ext, hd1, hcond.1, hstem, hnl, hext,
                hh ▸ hmid, ?_⟩
              have hrest : rest = h ++ [d2] := by
                rw [← hh, ← hd2]
                exact (List.dropLast_append_getLast hne).symm
              rw [← htake, ← hrest, ← hdrop, List.take_append_drop]
            · cases hm
        · cases hm
    · cases hm
  · rintro ⟨d1, d2, stem, ext, hd1, hd2, hstem, hnl, hext, hh, hline⟩
    have e1 : line.take 9 = "#include ".toList := by
      rw [hline, show (9 : Nat) = ("#include ".toList).length from rfl, List.take_left]
    have e2 : line.drop 9 = d1 :: (h ++ [d2]) := by
      rw [hline, show (9 : Nat) = ("#include ".toList).length from rfl, List.drop_left]
    unfold includeLineMatch
    rw [if_pos e1, e2]
    simp only [List.getLast?_concat, List.dropLast_concat]
    rw [if_pos hd1, if_pos ⟨hd2, (includeTargetMatch_iff h).mpr ⟨stem, ext, hstem, hnl, hext, hh⟩⟩]

/-- C3 (amended): the Include Scanner reports `H` for a line exactly when
the stripped line decomposes as `#include D₁HD₂` with `D₁ ∈ ("|<)` and
`D₂ ∈ ("|>)` chosen *independently* (so mismatched delimiter pairs such as
`#include "Foo.h>` are accepted), `H` being a nonempty newline-free stem
plus `.h`/`.hpp`; the reported list is exactly the per-line matches of the
stripped lines in source order, duplicates preserved. -/
theorem C3_include_scanner_characterization :
    (∀ line h, includeLineMatch line = some h ↔ IncludeDirectiveShape line h) ∧
    ∀ source, get_included_headers_from_source_code source =
      (splitLinesPy source).filterMap (fun line => includeLineMatch (pyStrip line)) :=
  ⟨includeLineMatch_eq_some_iff, fun _ => rfl⟩

/-- C3 counterexample to the claim as stated: the line `#include "Foo.h>`
(opening quote closed by `>`) is reported with header `Foo.h`, although it
is neither `#include "Foo.h"` nor `#include <Foo.h>` (stripping changes
nothing on it). -/
theorem C3_counterexample_mismatched_delimiters :
    get_included_headers_from_source_code "#include \"Foo.h>".toList = ["Foo.h".toList] ∧
    pyStrip "#include \"Foo.h>".toList = "#include \"Foo.h>".toList ∧
    "#include \"Foo.h>".toList ≠ "#include \"Foo.h\"".toList ∧
    "#include \"Foo.h>".toList ≠ "#include <Foo.h>".toList := by decide

/-! ## Claim C7 -/

theorem takeWhile_length_drop (p : Char → Bool) :
    ∀ l : Str, l.drop (l.takeWhile p).length = l.dropWhile p := by
  intro l
  induction l with
  | nil => rfl
  | cons c rest ih =>
    by_cases hp : p c
    · simp [List.takeWhile_cons, List.dropWhile_cons, hp, ih]
    · simp [List.takeWhile_cons, List.dropWhile_cons, hp]

theorem takeWhile_append_cons_neg (p : Char → Bool) :
    ∀ (a : Str) (c : Char) (t : Str), (∀ x ∈ a, p x = true) → p c = false →
      (a ++ c :: t).takeWhile p = a := by
  intro a
  induction a with
  | nil =>
    intro c t _ hc
    simp [List.takeWhile_cons, hc]
  | cons x a' ih =>
    intro c t ha hc
    have hx : p x = true := ha x (List.mem_cons_self _ _)
    simp only [List.cons_append, List.takeWhile_cons, hx, if_true]
    rw [ih c t (fun y hy => ha y (List.mem_cons_of_mem _ hy)) hc]

/-- One candidate split of `sketchSplitOk` succeeds exactly when the string
decomposes as `b ++ n ++ '/' :: n` with that group length. -/
theorem sketchSplitOk_iff (r : Str) (k : Nat) (hk : 1 ≤ k) :
    sketchSplitOk r k = true ↔
      ∃ b n : Str, n.length = k ∧ r = b ++ n ++ '/' :: n ∧ ('\n' ∉ n) ∧
        (b = [] ∨ ∃ c, c ≠ [] ∧ ('\n' ∉ c) ∧ b = c ++ ['/']) := by
  unfold sketchSplitOk
  simp only [Bool.and_eq_true, Bool.or_eq_true, beq_iff_eq, decide_eq_true_eq,
    List.elem_eq_mem, Bool.not_eq_eq_eq_not, Bool.not_true, decide_eq_false_iff_not]
  constructor
  · rintro ⟨hlen, ⟨⟨hslash, hcopy⟩, hnl⟩, hbc⟩
    set bl := r.length - (2 * k + 1) with hbl
    have h1 : r = r.take (bl + k) ++ r.drop (bl + k) := (List.take_append_drop _ r).symm
    have h2 : r.take (bl + k) = r.take bl ++ (r.take (bl + k)).drop bl := by
      nth_rewrite 1 [← List.take_append_drop bl (r.take (bl + k))]
      rw [List.take_take, min_eq_left (by omega)]
    have h3 : r.drop (bl + k) = (r.drop (bl + k)).take 1 ++ r.drop (bl + k + 1) := by
      nth_rewrite 1 [← List.take_append_drop 1 (r.drop (bl + k))]
      rw [List.drop_drop]
    have hslash2 : r.drop (bl + k) = '/' :: r.drop (bl + k + 1) := by
      rw [h3, hslash]
      rfl
    have hlen2 : (r.drop (bl + k + 1)).length = k := by
      rw [List.length_drop]
      omega
    refine ⟨r.take bl, r.drop (bl + k + 1), hlen2, ?_, hnl, ?_⟩
    · conv_lhs => rw [h1]
      rw [hslash2, ← hcopy, ← h2]
    · rcases hbc with hb0 | ⟨⟨hb1, hb2⟩, hb3⟩
      · exact Or.inl hb0
      · refine Or.inr ⟨(r.take bl).take (bl - 1), ?_, hb3, ?_⟩
        · have hc : ((r.take bl).take (bl - 1)).length = bl - 1 := by
            rw [List.length_take, List.length_take]
            omega
          intro h0
          rw [h0] at hc
          simp only [List.length_nil] at hc
          omega
        · nth_rewrite 1 [← List.take_append_drop (bl - 1) (r.take bl)]
          rw [hb1]
          rfl
  · rintro ⟨b, n, hlk, rfl, hnl, hbc⟩
    have hblen : (b ++ n ++ '/' :: n).length = b.length + 2 * k + 1 := by
      simp only [List.length_append, List.length_cons]
      omega
    have hbl : (b ++ n ++ '/' :: n).length - (2 * k + 1) = b.length := by omega
    have hlen1 : ((b ++ n) : Str).length = b.length + k := by
      rw [List.length_append]
      omega
    have hdropbk : (b ++ n ++ '/' :: n).drop (b.length + k) = '/' :: n := by
      rw [← hlen1, List.drop_left]
    have htakebk : (b ++ n ++ '/' :: n).take (b.length + k) = b ++ n := by
      rw [← hlen1, List.take_left]
    have hdropbk1 : (b ++ n ++ '/' :: n).drop (b.length + k + 1) = n := by
      have hre : b ++ n ++ '/' :: n = ((b ++ n) ++ ['/']) ++ n := by
        simp
      rw [hre, show b.length + k + 1 = (((b ++ n) ++ ['/']) : Str).length from by
        simp only [List.length_append, List.length_cons, List.length_nil]
        omega, List.drop_left]
    have htakeb : (b ++ n ++ '/' :: n).take b.length = b := by
      rw [List.append_assoc, List.take_left]
    refine ⟨by omega, ⟨⟨?_, ?_⟩, ?_⟩, ?_⟩
    · rw [hbl, hdropbk]
      rfl
    · rw [hbl, htakebk, hdropbk1, List.drop_left]
    · rw [hbl, hdropbk1]
      exact hnl
    · rw [hbl, htakeb]
      rcases hbc with hb0 | ⟨c, hc1, hc2, hc3⟩
      · exact Or.inl hb0
      · have hcb : b.length - 1 = c.length := by
          rw [hc3, List.length_append, List.length_cons, List.length_nil]
          omega
        refine Or.inr ⟨⟨?_, ?_⟩, ?_⟩
        · rw [hcb, hc3, List.drop_left]
          rfl
        · rw [hc3, List.length_append, List.length_cons, List.length_nil]
          have := List.length_pos.mpr hc1
          omega
        · rw [hcb, hc3, List.take_left]
          exact hc2

/-- The language of `(|.+/)(.+)/\2`: a backreference pair around a slash. -/
theorem sketchBodyMatch_iff (r : Str) :
    sketchBodyMatch r = true ↔
      ∃ b n : Str, n ≠ [] ∧ r = b ++ n ++ '/' :: n ∧ ('\n' ∉ n) ∧
        (b = [] ∨ ∃ c, c ≠ [] ∧ ('\n' ∉ c) ∧ b = c ++ ['/']) := by
  unfold sketchBodyMatch
  rw [List.any_eq_true]
  constructor
  · rintro ⟨j, hj, hok⟩
    rw [List.mem_range] at hj
    obtain ⟨b, n, hlk, hr, hnl, hbc⟩ := (sketchSplitOk_iff r (j + 1) (by omega)).mp hok
    refine ⟨b, n, ?_, hr, hnl, hbc⟩
    intro h0
    rw [h0] at hlk
    simp at hlk
  · rintro ⟨b, n, hne, rfl, hnl, hbc⟩
    have hk : 1 ≤ n.length := List.length_pos.mpr hne
    refine ⟨n.length - 1, ?_, ?_⟩
    · rw [List.mem_range, List.length_append, List.length_append, List.length_cons]
      omega
    · rw [show n.length - 1 + 1 = n.length from by omega,
        sketchSplitOk_iff _ _ (by omega)]
      exact ⟨b, n, rfl, rfl, hnl, hbc⟩

/-- The language of `(|.+/)(.+)/\2[.](ino|pde)`. -/
theorem sketchTailMatch_iff (r : Str) :
    sketchTailMatch r = true ↔
      ∃ b n e : Str, r = (b ++ n ++ '/' :: n) ++ '.' :: e ∧
        (b = [] ∨ ∃ c, c ≠ [] ∧ ('\n' ∉ c) ∧ b = c ++ ['/']) ∧
        n ≠ [] ∧ ('\n' ∉ n) ∧ (e = "ino".toList ∨ e = "pde".toList) := by
  unfold sketchTailMatch
  simp only [Bool.and_eq_true, Bool.or_eq_true, beq_iff_eq, decide_eq_true_eq]
  constructor
  · rintro ⟨⟨hext, hlen4⟩, hbody⟩
    have hx4 : ∀ t : Str, t = ".ino".toList ∨ t = ".pde".toList →
        r.drop (r.length - 4) = t →
        ∃ x, r = x ++ t ∧ r.take (r.length - 4) = x := by
      intro t ht hdt
      have htl : t.length = 4 := by
        rcases ht with h | h <;> rw [h] <;> rfl
      have hle : t.length ≤ r.length := by omega
      obtain ⟨x, hrx, hxl⟩ := (drop_sub_length_eq_iff hle).mp (by rw [htl]; exact hdt)
      refine ⟨x, hrx, ?_⟩
      have hlx : ((x ++ t) : Str).length - 4 = x.length := by
        rw [List.length_append]
        omega
      rw [hrx, hlx, List.take_left]
    rcases hext with hext | hext
    · obtain ⟨x, hrx, htx⟩ := hx4 ".ino".toList (Or.inl rfl) hext
      rw [htx] at hbody
      obtain ⟨b, n, hne, hxd, hnl, hbc⟩ := (sketchBodyMatch_iff x).mp hbody
      exact ⟨b, n, "ino".toList, by rw [hrx, hxd]; rfl, hbc, hne, hnl, Or.inl rfl⟩
    · obtain ⟨x, hrx, htx⟩ := hx4 ".pde".toList (Or.inr rfl) hext
      rw [htx] at hbody
      obtain ⟨b, n, hne, hxd, hnl, hbc⟩ := (sketchBodyMatch_iff x).mp hbody
      exact ⟨b, n, "pde".toList, by rw [hrx, hxd]; rfl, hbc, hne, hnl, Or.inr rfl⟩
  · rintro ⟨b, n, e, rfl, hbc, hne, hnl, hext⟩
    have hel : e.length = 3 := by
      rcases hext with h | h <;> rw [h] <;> rfl
    have hlen : ((b ++ n ++ '/' :: n) ++ '.' :: e).length =
        ((b ++ n ++ '/' :: n) : Str).length + 4 := by
      rw [List.length_append, List.length_cons]
      omega
    have hsub : ((b ++ n ++ '/' :: n) ++ '.' :: e).length - 4 =
        ((b ++ n ++ '/' :: n) : Str).length := by omega
    have hdrop : ((b ++ n ++ '/' :: n) ++ '.' :: e).drop
        (((b ++ n ++ '/' :: n) ++ '.' :: e).length - 4) = '.' :: e := by
      rw [hsub, List.drop_left]
    have htake : ((b ++ n ++ '/' :: n) ++ '.' :: e).take
        (((b ++ n ++ '/' :: n) ++ '.' :: e).length - 4) = b ++ n ++ '/' :: n := by
      rw [hsub, List.take_left]
    refine ⟨⟨?_, by omega⟩, ?_⟩
    · rcases hext with h | h <;> rw [hdrop, h]
      · left
        rfl
      · right
        rfl
    · rw [htake, sketchBodyMatch_iff]
      exact ⟨b, n, hne, rfl, hnl, hbc⟩

/-- The (amended) shape of a located example sketch: some archive-root
segment, `examples/`, an optional grouping part ending in a slash, then a
name `n` — which, because `(.+)` also matches slashes, may itself span
several path segments — repeated around a slash and given an `ino`/`pde`
extension. -/
def SketchShape (f : Str) : Prop :=
  ∃ a b n e : Str, f = a ++ "/examples/".toList ++ ((b ++ n ++ '/' :: n) ++ '.' :: e) ∧
    a ≠ [] ∧ ('/' ∉ a) ∧
    (b = [] ∨ ∃ c, c ≠ [] ∧ ('\n' ∉ c) ∧ b = c ++ ['/']) ∧
    n ≠ [] ∧ ('\n' ∉ n) ∧ (e = "ino".toList ∨ e = "pde".toList)

/-- The sketch regex recognises exactly the `SketchShape` strings. -/
theorem sketchMatch_iff (f : Str) : sketchMatch f = true ↔ SketchShape f := by
  unfold sketchMatch
  simp only [Bool.and_eq_true, beq_iff_eq, Bool.not_eq_eq_eq_not, Bool.not_true,
    beq_eq_false_iff_ne, ne_eq]
  constructor
  · rintro ⟨⟨ha, hmark⟩, htail⟩
    set a := f.takeWhile (fun c => decide (c ≠ '/')) with hadef
    have hslashfree : '/' ∉ a := by
      intro hm
      have := List.mem_takeWhile_imp hm
      simp at this
    have hf1 : f = a ++ f.drop a.length := by
      rw [hadef, takeWhile_length_drop]
      exact (List.takeWhile_append_dropWhile ..).symm
    have hf2 : f.drop a.length = "/examples/".toList ++ f.drop (a.length + 10) := by
      conv_lhs => rw [← List.take_append_drop 10 (f.drop a.length)]
      rw [hmark, List.drop_drop]
    obtain ⟨b, n, e, hdec, hbc, hne, hnl, hext⟩ :=
      (sketchTailMatch_iff (f.drop (a.length + 10))).mp htail
    refine ⟨a, b, n, e, ?_, ha, hslashfree, hbc, hne, hnl, hext⟩
    rw [← hdec]
    conv_lhs => rw [hf1, hf2]
    rw [List.append_assoc]
  · rintro ⟨a, b, n, e, rfl, ha, hsf, hbc, hne, hnl, hext⟩
    have hts : a ++ "/examples/".toList ++ ((b ++ n ++ '/' :: n) ++ '.' :: e) =
        a ++ '/' :: ("examples/".toList ++ ((b ++ n ++ '/' :: n) ++ '.' :: e)) := by
      rw [List.append_assoc]
      rfl
    have htw : (a ++ "/examples/".toList ++
        ((b ++ n ++ '/' :: n) ++ '.' :: e)).takeWhile (fun c => decide (c ≠ '/')) = a := by
      rw [hts]
      exact takeWhile_append_cons_neg _ a '/' _
        (fun x hx => by
          simp only [decide_eq_true_eq]
          intro h
          rw [h] at hx
          exact hsf hx) (by simp)
    have hd1 : (a ++ "/examples/".toList ++
        ((b ++ n ++ '/' :: n) ++ '.' :: e)).drop a.length =
        "/examples/".toList ++ ((b ++ n ++ '/' :: n) ++ '.' :: e) := by
      rw [List.append_assoc, List.drop_left]
    have hd2 : (a ++ "/examples/".toList ++
        ((b ++ n ++ '/' :: n) ++ '.' :: e)).drop (a.length + 10) =
        (b ++ n ++ '/' :: n) ++ '.' :: e := by
      rw [show a.length + 10 = ((a ++ "/examples/".toList) : Str).length from by
        rw [List.length_append, show ("/examples/".toList).length = 10 from rfl],
        List.drop_left]
    refine ⟨⟨?_, ?_⟩, ?_⟩
    · rw [htw]
      exact ha
    · rw [htw, hd1, show (10 : Nat) = ("/examples/".toList).length from rfl, List.take_left]
    · rw [htw, hd2, sketchTailMatch_iff]
      exact ⟨b, n, e, rfl, hbc, hne, hnl, hext⟩

/-- C7 (amended): `get_example_sketches` returns exactly the entries of
shape `<root>/examples/<group><n>/<n>.<ext>` with `<ext>` in ino/pde, where
the repeated group `<n>` is any nonempty newline-free string and — because
the regex group `(.+)` also matches `/` — may span several path segments,
so the file's basename need not equal its immediate containing directory. -/
theorem C7_example_locator_characterization (filenames : List Str) (f : Str) :
    f ∈ get_example_sketches filenames ↔ f ∈ filenames ∧ SketchShape f := by
  unfold get_example_sketches
  rw [List.mem_filter]
  exact and_congr_right (fun _ => sketchMatch_iff f)

/-- The file name's stem (up to the first dot of the basename). -/
def stemOf (f : Str) : Str :=
  (pathName f).takeWhile (fun c => c ≠ '.')

/-- The name of the entry's immediate containing directory. -/
def parentDirName (f : Str) : Str :=
  pathName (f.take (f.length - (pathName f).length - 1))

/-- C7 counterexample to the claim as stated: the entry
`Lib/examples/a/b/a/b.ino` is returned (the repeated group is `a/b`), yet
its basename stem `b` differs from its immediate containing directory `a`. -/
theorem C7_counterexample_basename_mismatch :
    get_example_sketches ["Lib/examples/a/b/a/b.ino".toList] =
      ["Lib/examples/a/b/a/b.ino".toList] ∧
    stemOf "Lib/examples/a/b/a/b.ino".toList = "b".toList ∧
    parentDirName "Lib/examples/a/b/a/b.ino".toList = "a".toList ∧
    ("b".toList : Str) ≠ "a".toList := by decide

/-! ## Claim C6 -/

/-- The `latestLoop` state collapsed to one association list: `max_version`
and `variant_bucket` always hold, for each name, the version of (resp. the
singleton of) one chosen item. -/
def latestRef : List TargetItem → List (Str × TargetItem) → List (Str × TargetItem)
  | [], acc => acc
  | item :: rest, acc =>
    match dictGet acc item.1.name with
    | some cur =>
      if semverCompare cur.1.version item.1.version < 0 then
        latestRef rest (dictSet acc item.1.name item)
      else latestRef rest acc
    | none => latestRef rest (dictSet acc item.1.name item)

theorem dictGet_map {β γ : Type} (g : β → γ) :
    ∀ (d : List (Str × β)) (k : Str),
      dictGet (d.map (fun p => (p.1, g p.2))) k = (dictGet d k).map g := by
  intro d
  induction d with
  | nil => intro k; rfl
  | cons hd tl ih =>
    intro k
    obtain ⟨k', v⟩ := hd
    by_cases hk : k' = k
    · subst hk
      simp [dictGet]
    · simp [dictGet, hk, ih]

theorem dictSet_map {β γ : Type} (g : β → γ) :
    ∀ (d : List (Str × β)) (k : Str) (v : β),
      dictSet (d.map (fun p => (p.1, g p.2))) k (g v) =
        (dictSet d k v).map (fun p => (p.1, g p.2)) := by
  intro d
  induction d with
  | nil => intro k v; rfl
  | cons hd tl ih =>
    intro k v
    obtain ⟨k', v'⟩ := hd
    by_cases hk : k' = k
    · subst hk
      simp [dictSet]
    · simp [dictSet, hk, ih]

/-- The two dicts of `latestLoop` are the two images of the single
`latestRef` association list. -/
theorem latestLoop_eq_ref :
    ∀ (items : List TargetItem) (acc : List (Str × TargetItem)),
      latestLoop items (acc.map (fun p => (p.1, p.2.1.version)))
          (acc.map (fun p => (p.1, [p.2]))) =
        ((latestRef items acc).map (fun p => (p.1, p.2.1.version)),
         (latestRef items acc).map (fun p => (p.1, [p.2]))) := by
  intro items
  induction items with
  | nil => intro acc; rfl
  | cons item rest ih =>
    intro acc
    rcases hget : dictGet acc item.1.name with _ | cur
    · have hbget : dictGet (acc.map (fun p => (p.1, [p.2]))) item.1.name = none := by
        rw [dictGet_map (fun it => [it]) acc, hget]
        rfl
      rw [latestLoop, hbget]
      simp only [Option.isSome_none, Bool.false_eq_true, if_false]
      rw [latestRef, hget]
      rw [show dictSet (acc.map (fun p => (p.1, p.2.1.version))) item.1.name item.1.version =
          (dictSet acc item.1.name item).map (fun p => (p.1, p.2.1.version)) from
          dictSet_map (fun it => it.1.version) acc item.1.name item,
        show dictSet (acc.map (fun p => (p.1, [p.2]))) item.1.name [item] =
          (dictSet acc item.1.name item).map (fun p => (p.1, [p.2])) from
          dictSet_map (fun it => [it]) acc item.1.name item]
      exact ih _
    · have hbget : dictGet (acc.map (fun p => (p.1, [p.2]))) item.1.name = some [cur] := by
        rw [dictGet_map (fun it => [it]) acc, hget]
        rfl
      have hvget : dictGet (acc.map (fun p => (p.1, p.2.1.version))) item.1.name =
          some cur.1.version := by
        rw [dictGet_map (fun it => it.1.version) acc, hget]
        rfl
      rw [latestLoop, hbget]
      simp only [Option.isSome_some, if_true, hvget, Option.getD_some]
      have hRef : latestRef (item :: rest) acc =
          (if semverCompare cur.1.version item.1.version < 0 then
            latestRef rest (dictSet acc item.1.name item)
          else latestRef rest acc) := by
        rw [latestRef, hget]
      rw [hRef]
      by_cases hcmp : semverCompare cur.1.version item.1.version < 0
      · rw [if_pos hcmp, if_pos hcmp]
        rw [show dictSet (acc.map (fun p => (p.1, p.2.1.version))) item.1.name item.1.version =
            (dictSet acc item.1.name item).map (fun p => (p.1, p.2.1.version)) from
            dictSet_map (fun it => it.1.version) acc item.1.name item,
          show dictSet (acc.map (fun p => (p.1, [p.2]))) item.1.name [item] =
            (dictSet acc item.1.name item).map (fun p => (p.1, [p.2])) from
            dictSet_map (fun it => [it]) acc item.1.name item]
        exact ih _
      · rw [if_neg hcmp, if_neg hcmp]
        exact ih _

/-- The computed LATEST targets are the values of the collapsed loop. -/
theorem compute_extract_targets_latest_eq (infoList : List LibraryInfo)
    (examplesList : Option (List (List Str))) :
    compute_extract_targets infoList examplesList VersionFlag.latestVersions =
      (latestRef (targetItems infoList examplesList) []).map (fun p => p.2) := by
  unfold compute_extract_targets
  have h0 := latestLoop_eq_ref (targetItems infoList examplesList) []
  simp only [List.map_nil] at h0
  show ((latestLoop (targetItems infoList examplesList) [] []).2.map
    (fun p => p.2)).flatten = _
  rw [h0]
  generalize latestRef (targetItems infoList examplesList) [] = d
  induction d with
  | nil => rfl
  | cons hd tl ih =>
    simp only [List.map_cons, List.flatten_cons, List.singleton_append]
    congr 1

/-- The replace-if-strictly-greater step of the LATEST selection. -/
def bestOf : Option TargetItem → TargetItem → Option TargetItem
  | none, it => some it
  | some cur, it =>
    if semverCompare cur.1.version it.1.version < 0 then some it else some cur

/-- Per-name view of `latestRef`: the bucket entry for a name is the fold of
the replace-if-strictly-greater step over the items carrying that name. -/
theorem latestRef_get :
    ∀ (items : List TargetItem) (acc : List (Str × TargetItem)) (nm : Str),
      dictGet (latestRef items acc) nm =
        (items.filter (fun it => decide (it.1.name = nm))).foldl bestOf (dictGet acc nm) := by
  intro items
  induction items with
  | nil => intro acc nm; rfl
  | cons item rest ih =>
    intro acc nm
    by_cases hnm : item.1.name = nm
    · subst hnm
      rw [List.filter_cons_of_pos (by simp)]
      rcases hget : dictGet acc item.1.name with _ | cur
      · rw [latestRef, hget, ih, dictGet_dictSet_self, List.foldl_cons]
        simp only [bestOf, hget]
      · have hRef : latestRef (item :: rest) acc =
            (if semverCompare cur.1.version item.1.version < 0 then
              latestRef rest (dictSet acc item.1.name item)
            else latestRef rest acc) := by
          rw [latestRef, hget]
        rw [hRef, List.foldl_cons]
        by_cases hcmp : semverCompare cur.1.version item.1.version < 0
        · rw [if_pos hcmp, ih, dictGet_dictSet_self]
          simp only [bestOf, hget, if_pos hcmp]
        · rw [if_neg hcmp, ih]
          simp only [bestOf, hget, if_neg hcmp]
    · rw [List.filter_cons_of_neg (by simp [hnm])]
      rcases hget : dictGet acc item.1.name with _ | cur
      · rw [latestRef, hget, ih, dictGet_dictSet_ne _ _ hnm]
      · have hRef : latestRef (item :: rest) acc =
            (if semverCompare cur.1.version item.1.version < 0 then
              latestRef rest (dictSet acc item.1.name item)
            else latestRef rest acc) := by
          rw [latestRef, hget]
        rw [hRef]
        by_cases hcmp : semverCompare cur.1.version item.1.version < 0
        · rw [if_pos hcmp, ih, dictGet_dictSet_ne _ _ hnm]
        · rw [if_neg hcmp, ih]

/-- `dictSet` key list: unchanged when present, one fresh key appended. -/
theorem dictSet_keys {β : Type} :
    ∀ (d : List (Str × β)) (k : Str) (v : β),
      (dictSet d k v).map Prod.fst =
        if k ∈ d.map Prod.fst then d.map Prod.fst else d.map Prod.fst ++ [k] := by
  intro d
  induction d with
  | nil =>
    intro k v
    simp only [List.map_nil]
    rw [if_neg (List.not_mem_nil k)]
    rfl
  | cons hd tl ih =>
    intro k v
    obtain ⟨k', v'⟩ := hd
    by_cases hk : k' = k
    · simp only [dictSet, if_pos hk, List.map_cons]
      rw [if_pos (List.mem_cons.mpr (Or.inl hk.symm))]
    · have hne : k ≠ k' := fun h => hk h.symm
      simp only [dictSet, if_neg hk, List.map_cons, List.mem_cons, hne, false_or, ih]
      by_cases hmem : k ∈ tl.map Prod.fst
      · simp [hmem]
      · simp [hmem]

/-- `latestRef` preserves both structural invariants of the bucket:
duplicate-free keys, and each stored item carrying its key as name. -/
theorem latestRef_wf :
    ∀ (items : List TargetItem) (acc : List (Str × TargetItem)),
      ((acc.map Prod.fst).Nodup ∧ ∀ p ∈ acc, p.2.1.name = p.1) →
      ((latestRef items acc).map Prod.fst).Nodup ∧
        ∀ p ∈ latestRef items acc, p.2.1.name = p.1 := by
  intro items
  induction items with
  | nil => intro acc h; exact h
  | cons item rest ih =>
    intro acc ⟨hnd, hname⟩
    have hset : ((dictSet acc item.1.name item).map Prod.fst).Nodup ∧
        ∀ p ∈ dictSet acc item.1.name item, p.2.1.name = p.1 := by
      constructor
      · rw [dictSet_keys]
        by_cases hmem : item.1.name ∈ acc.map Prod.fst
        · simpa [hmem] using hnd
        · simpa [hmem, List.nodup_append, hmem] using hnd
      · intro p hp
        rcases mem_dictSet hp with hold | hnew
        · exact hname p hold
        · rw [hnew]
    rcases hget : dictGet acc item.1.name with _ | cur
    · rw [latestRef, hget]
      exact ih _ hset
    · have hRef : latestRef (item :: rest) acc =
          (if semverCompare cur.1.version item.1.version < 0 then
            latestRef rest (dictSet acc item.1.name item)
          else latestRef rest acc) := by
        rw [latestRef, hget]
      rw [hRef]
      by_cases hcmp : semverCompare cur.1.version item.1.version < 0
      · rw [if_pos hcmp]
        exact ih _ hset
      · rw [if_neg hcmp]
        exact ih _ ⟨hnd, hname⟩

/-- In a well-formed bucket, filtering the values by name reads off the
dictionary entry for that name. -/
theorem assoc_values_filter :
    ∀ (d : List (Str × TargetItem)), (d.map Prod.fst).Nodup →
      (∀ p ∈ d, p.2.1.name = p.1) → ∀ nm,
      (d.map Prod.snd).filter (fun t => decide (t.1.name = nm)) =
        (dictGet d nm).toList := by
  intro d
  induction d with
  | nil => intro _ _ nm; rfl
  | cons hd tl ih =>
    intro hnd hname nm
    obtain ⟨k, v⟩ := hd
    have hv : v.1.name = k := hname (k, v) (List.mem_cons_self _ _)
    simp only [List.map_cons, List.nodup_cons] at hnd
    by_cases hk : k = nm
    · subst hk
      rw [List.map_cons, List.filter_cons_of_pos (by simp [hv])]
      have htl : (tl.map Prod.snd).filter (fun t => decide (t.1.name = k)) = [] := by
        rw [List.filter_eq_nil_iff]
        intro t ht
        rw [List.mem_map] at ht
        obtain ⟨p, hp, rfl⟩ := ht
        simp only [decide_eq_true_eq]
        rw [hname p (List.mem_cons_of_mem _ hp)]
        intro h0
        exact hnd.1 (h0 ▸ List.mem_map.mpr ⟨p, hp, rfl⟩)
      rw [htl]
      simp [dictGet]
    · have hne : ¬ v.1.name = nm := by rw [hv]; exact hk
      rw [List.map_cons, List.filter_cons_of_neg (by simp [hne])]
      rw [ih hnd.2 (fun p hp => hname p (List.mem_cons_of_mem _ hp)) nm]
      simp [dictGet, hk]

/-- Strict lexicographic order on parsed versions. -/
def ltLex (x y : Nat × Nat × Nat) : Prop :=
  x.1 < y.1 ∨ (x.1 = y.1 ∧ (x.2.1 < y.2.1 ∨ (x.2.1 = y.2.1 ∧ x.2.2 < y.2.2)))

theorem compareTriple_lt_iff (x y : Nat × Nat × Nat) :
    compareTriple x y < 0 ↔ ltLex x y := by
  unfold compareTriple ltLex
  split_ifs <;> omega

theorem semverCompare_lt_iff {a b : Str} {pa pb : Nat × Nat × Nat}
    (ha : parseSemver a = some pa) (hb : parseSemver b = some pb) :
    semverCompare a b < 0 ↔ ltLex pa pb := by
  unfold semverCompare
  rw [ha, hb]
  exact compareTriple_lt_iff pa pb

theorem compareTriple_self (x : Nat × Nat × Nat) : compareTriple x x = 0 := by
  unfold compareTriple
  split_ifs <;> omega

theorem semverCompare_self_not_lt (a : Str) : ¬ semverCompare a a < 0 := by
  rcases h : parseSemver a with _ | pa
  · simp [semverCompare, h]
  · simp [semverCompare, h, compareTriple_self]

theorem vlt_trans {a b c : Str} (ha : (parseSemver a).isSome)
    (hb : (parseSemver b).isSome) (hc : (parseSemver c).isSome) :
    semverCompare a b < 0 → semverCompare b c < 0 → semverCompare a c < 0 := by
  obtain ⟨pa, hpa⟩ := Option.isSome_iff_exists.mp ha
  obtain ⟨pb, hpb⟩ := Option.isSome_iff_exists.mp hb
  obtain ⟨pc, hpc⟩ := Option.isSome_iff_exists.mp hc
  rw [semverCompare_lt_iff hpa hpb, semverCompare_lt_iff hpb hpc,
    semverCompare_lt_iff hpa hpc]
  unfold ltLex
  omega

/-- `x < a` and `a ≤ cur` (i.e. not `cur < a`) give `x < cur`. -/
theorem vlt_of_lt_of_not_lt {x a cur : Str} (hx : (parseSemver x).isSome)
    (ha : (parseSemver a).isSome) (hcur : (parseSemver cur).isSome) :
    semverCompare x a < 0 → ¬ semverCompare cur a < 0 → semverCompare x cur < 0 := by
  obtain ⟨px, hpx⟩ := Option.isSome_iff_exists.mp hx
  obtain ⟨pa, hpa⟩ := Option.isSome_iff_exists.mp ha
  obtain ⟨pc, hpc⟩ := Option.isSome_iff_exists.mp hcur
  rw [semverCompare_lt_iff hpx hpa, semverCompare_lt_iff hpc hpa,
    semverCompare_lt_iff hpx hpc]
  unfold ltLex
  omega

/-- Rank-equal versions (neither strictly below the other) compare the same
way against every third version. -/
theorem vlt_congr {a b c : Str} (ha : (parseSemver a).isSome)
    (hb : (parseSemver b).isSome) (hc : (parseSemver c).isSome)
    (h1 : ¬ semverCompare a b < 0) (h2 : ¬ semverCompare b a < 0) :
    (semverCompare a c < 0 ↔ semverCompare b c < 0) := by
  obtain ⟨pa, hpa⟩ := Option.isSome_iff_exists.mp ha
  obtain ⟨pb, hpb⟩ := Option.isSome_iff_exists.mp hb
  obtain ⟨pc, hpc⟩ := Option.isSome_iff_exists.mp hc
  rw [semverCompare_lt_iff hpa hpb] at h1
  rw [semverCompare_lt_iff hpb hpa] at h2
  rw [semverCompare_lt_iff hpa hpc, semverCompare_lt_iff hpb hpc]
  unfold ltLex at *
  omega

theorem find?_congr {α : Type} (p q : α → Bool) :
    ∀ l : List α, (∀ x ∈ l, p x = q x) → l.find? p = l.find? q := by
  intro l
  induction l with
  | nil => intro _; rfl
  | cons a t ih =>
    intro h
    have ha := h a (List.mem_cons_self _ _)
    cases hq : q a with
    | true =>
      rw [List.find?_cons_of_pos _ (ha.trans hq), List.find?_cons_of_pos _ hq]
    | false =>
      rw [List.find?_cons_of_neg _ (by rw [ha, hq]; exact Bool.false_ne_true),
        List.find?_cons_of_neg _ (by rw [hq]; exact Bool.false_ne_true)]
      exact ih (fun x hx => h x (List.mem_cons_of_mem _ hx))

/-- `x` is (weakly) maximal among `l` for the semantic-version order. -/
def isMaxIn (l : List TargetItem) (x : TargetItem) : Bool :=
  l.all (fun y => !decide (semverCompare x.1.version y.1.version < 0))

theorem isMaxIn_spec (l : List TargetItem) (x : TargetItem) :
    isMaxIn l x = true ↔ ∀ y ∈ l, ¬ semverCompare x.1.version y.1.version < 0 := by
  simp [isMaxIn, List.all_eq_true]

/-- The running replace-if-strictly-greater fold lands on the *first*
maximal element of the candidate list (first-encountered wins on ties). -/
theorem foldl_bestOf_spec :
    ∀ (t : List TargetItem) (cur : TargetItem),
      (∀ x ∈ cur :: t, (parseSemver x.1.version).isSome) →
      t.foldl bestOf (some cur) = (cur :: t).find? (isMaxIn (cur :: t)) := by
  intro t
  induction t with
  | nil =>
    intro cur _
    rw [List.foldl_nil, List.find?_cons_of_pos]
    rw [isMaxIn_spec]
    intro y hy
    rw [List.mem_singleton] at hy
    rw [hy]
    exact semverCompare_self_not_lt _
  | cons a t' ih =>
    intro cur hval
    have hvc : (parseSemver cur.1.version).isSome := hval cur (List.mem_cons_self _ _)
    have hva : (parseSemver a.1.version).isSome :=
      hval a (List.mem_cons_of_mem _ (List.mem_cons_self _ _))
    have hvt : ∀ x ∈ t', (parseSemver x.1.version).isSome := fun x hx =>
      hval x (List.mem_cons_of_mem _ (List.mem_cons_of_mem _ hx))
    rw [List.foldl_cons]
    by_cases hlt : semverCompare cur.1.version a.1.version < 0
    · have hbo : bestOf (some cur) a = some a := by simp [bestOf, hlt]
      rw [hbo, ih a (fun x hx => List.mem_cons.mp hx |>.elim
        (fun h => h ▸ hva) (fun h => hvt x h))]
      have hPc : isMaxIn (cur :: a :: t') cur = false := by
        rcases hb : isMaxIn (cur :: a :: t') cur with _ | _
        · rfl
        · rw [isMaxIn_spec] at hb
          exact absurd hlt (hb a (List.mem_cons_of_mem _ (List.mem_cons_self _ _)))
      rw [List.find?_cons_of_neg _ (show ¬ isMaxIn (cur :: a :: t') cur = true from by
        rw [hPc]; exact Bool.false_ne_true)]
      apply find?_congr
      intro x hx
      have hvx : (parseSemver x.1.version).isSome := List.mem_cons.mp hx |>.elim
        (fun h => h ▸ hva) (fun h => hvt x h)
      rcases hML : isMaxIn (a :: t') x with _ | _
      · rcases hPL : isMaxIn (cur :: a :: t') x with _ | _
        · rfl
        · rw [isMaxIn_spec] at hPL
          have hco : isMaxIn (a :: t') x = true := by
            rw [isMaxIn_spec]
            intro y hy
            exact hPL y (List.mem_cons_of_mem _ hy)
          rw [hML] at hco
          exact absurd hco Bool.false_ne_true
      · rw [isMaxIn_spec] at hML
        have hnc : ¬ semverCompare x.1.version cur.1.version < 0 := by
          intro hxc
          exact hML a (List.mem_cons_self _ _)
            (vlt_trans hvx hvc hva hxc hlt)
        rw [eq_comm, isMaxIn_spec]
        intro y hy
        rcases List.mem_cons.mp hy with rfl | hy'
        · exact hnc
        · exact hML y hy'
    · have hbo : bestOf (some cur) a = some cur := by simp [bestOf, hlt]
      rw [hbo, ih cur (fun x hx => List.mem_cons.mp hx |>.elim
        (fun h => h ▸ hvc) (fun h => hvt x h))]
      by_cases hPc : isMaxIn (cur :: a :: t') cur = true
      · have hQc : isMaxIn (cur :: t') cur = true := by
          rw [isMaxIn_spec] at hPc ⊢
          intro y hy
          rcases List.mem_cons.mp hy with rfl | hy'
          · exact hPc y (List.mem_cons_self _ _)
          · exact hPc y (List.mem_cons_of_mem _ (List.mem_cons_of_mem _ hy'))
        rw [List.find?_cons_of_pos _ hQc, List.find?_cons_of_pos _ hPc]
      · have hQc : ¬ isMaxIn (cur :: t') cur = true := by
          intro hQ
          apply hPc
          rw [isMaxIn_spec] at hQ ⊢
          intro y hy
          rcases List.mem_cons.mp hy with rfl | hy'
          · exact hQ y (List.mem_cons_self _ _)
          · rcases List.mem_cons.mp hy' with rfl | hy''
            · exact hlt
            · exact hQ y (List.mem_cons_of_mem _ hy'')
        rw [List.find?_cons_of_neg _ hQc, List.find?_cons_of_neg _ hPc]
        have hPa : ¬ isMaxIn (cur :: a :: t') a = true := by
          intro hA
          apply hPc
          rw [isMaxIn_spec] at hA ⊢
          have hac : ¬ semverCompare a.1.version cur.1.version < 0 :=
            hA cur (List.mem_cons_self _ _)
          intro y hy
          have hvy : (parseSemver y.1.version).isSome := hval y hy
          intro hcy
          exact hA y hy ((vlt_congr hvc hva hvy hlt hac).mp hcy)
        rw [List.find?_cons_of_neg _ hPa]
        apply find?_congr
        intro x hx
        have hvx : (parseSemver x.1.version).isSome := hvt x hx
        rcases hQx : isMaxIn (cur :: t') x with _ | _
        · rcases hPx : isMaxIn (cur :: a :: t') x with _ | _
          · rfl
          · exfalso
            rw [isMaxIn_spec] at hPx
            have : isMaxIn (cur :: t') x = true := by
              rw [isMaxIn_spec]
              intro y hy
              rcases List.mem_cons.mp hy with rfl | hy'
              · exact hPx y (List.mem_cons_self _ _)
              · exact hPx y (List.mem_cons_of_mem _ (List.mem_cons_of_mem _ hy'))
            rw [hQx] at this
            exact Bool.false_ne_true this
        · rw [isMaxIn_spec] at hQx
          have hnxa : ¬ semverCompare x.1.version a.1.version < 0 := by
            intro hxa
            exact hQx cur (List.mem_cons_self _ _)
              (vlt_of_lt_of_not_lt hvx hva hvc hxa hlt)
          rw [eq_comm, isMaxIn_spec]
          intro y hy
          rcases List.mem_cons.mp hy with rfl | hy'
          · exact hQx y (List.mem_cons_self _ _)
          · rcases List.mem_cons.mp hy' with rfl | hy''
            · exact hnxa
            · exact hQx y (List.mem_cons_of_mem _ hy'')

theorem foldl_bestOf_none (l : List TargetItem)
    (hv : ∀ x ∈ l, (parseSemver x.1.version).isSome) :
    l.foldl bestOf none = l.find? (isMaxIn l) := by
  cases l with
  | nil => rfl
  | cons a t =>
    rw [List.foldl_cons]
    exact foldl_bestOf_spec t a hv

theorem foldl_bestOf_isSome :
    ∀ (t : List TargetItem) (c : TargetItem), (t.foldl bestOf (some c)).isSome := by
  intro t
  induction t with
  | nil => intro c; rfl
  | cons a t' ih =>
    intro c
    rw [List.foldl_cons]
    by_cases h : semverCompare c.1.version a.1.version < 0
    · rw [show bestOf (some c) a = some a from by simp [bestOf, h]]
      exact ih a
    · rw [show bestOf (some c) a = some c from by simp [bestOf, h]]
      exact ih c

/-- The specification of the LATEST policy, in the claim's words: among the
candidate items carrying a given library name, the first one whose version
is not strictly below any other candidate's version (the first-encountered
greatest version). -/
def firstMaxTarget (items : List TargetItem) (nm : Str) : Option TargetItem :=
  (items.filter (fun it => decide (it.1.name = nm))).find?
    (isMaxIn (items.filter (fun it => decide (it.1.name = nm))))

/-- C6: under the LATEST policy, for each library name the computed targets
contain exactly the first-encountered greatest-version candidate of that
name (one target per present name, none for absent names; equal versions
resolved deterministically in favour of the first in input order), provided
every candidate's version parses as a semantic version. -/
theorem C6_latest_keeps_first_maximum (infoList : List LibraryInfo)
    (examplesList : Option (List (List Str)))
    (hval : ∀ it ∈ targetItems infoList examplesList, (parseSemver it.1.version).isSome)
    (nm : Str) :
    (compute_extract_targets infoList examplesList VersionFlag.latestVersions).filter
        (fun t => decide (t.1.name = nm)) =
      (firstMaxTarget (targetItems infoList examplesList) nm).toList ∧
    ((targetItems infoList examplesList).filter (fun it => decide (it.1.name = nm)) ≠ [] →
      ((compute_extract_targets infoList examplesList VersionFlag.latestVersions).filter
        (fun t => decide (t.1.name = nm))).length = 1) := by
  have hwf := latestRef_wf (targetItems infoList examplesList) []
    ⟨List.nodup_nil, fun p hp => absurd hp (List.not_mem_nil p)⟩
  have heq1 : (compute_extract_targets infoList examplesList
      VersionFlag.latestVersions).filter (fun t => decide (t.1.name = nm)) =
      (dictGet (latestRef (targetItems infoList examplesList) []) nm).toList := by
    rw [compute_extract_targets_latest_eq]
    exact assoc_values_filter _ hwf.1 hwf.2 nm
  have heq2 : dictGet (latestRef (targetItems infoList examplesList) []) nm =
      ((targetItems infoList examplesList).filter
        (fun it => decide (it.1.name = nm))).foldl bestOf none := by
    rw [latestRef_get]
    rfl
  have hvf : ∀ x ∈ (targetItems infoList examplesList).filter
      (fun it => decide (it.1.name = nm)), (parseSemver x.1.version).isSome :=
    fun x hx => hval x (List.mem_of_mem_filter hx)
  have heq3 := foldl_bestOf_none _ hvf
  constructor
  · rw [heq1, heq2, heq3]
    rfl
  · intro hne
    have hsome : (((targetItems infoList examplesList).filter
        (fun it => decide (it.1.name = nm))).foldl bestOf none).isSome := by
      rcases hf : (targetItems infoList examplesList).filter
          (fun it => decide (it.1.name = nm)) with _ | ⟨a, t⟩
      · exact absurd hf hne
      · rw [hf, List.foldl_cons]
        exact foldl_bestOf_isSome t a
    obtain ⟨v, hv⟩ := Option.isSome_iff_exists.mp hsome
    rw [heq1, heq2, hv]
    rfl

/-- C6 witness: the spec's own scenario — variants 1.0.0, 1.2.0, 1.1.0 of
library `X` — plus ties resolved to the first occurrence. -/
theorem C6_latest_keeps_first_maximum_witness :
    ((compute_extract_targets
        [⟨"X".toList, "1.0.0".toList, []⟩, ⟨"X".toList, "1.2.0".toList, []⟩,
         ⟨"X".toList, "1.1.0".toList, []⟩] none VersionFlag.latestVersions).filter
        (fun t => decide (t.1.name = "X".toList)) =
      (firstMaxTarget (targetItems
        [⟨"X".toList, "1.0.0".toList, []⟩, ⟨"X".toList, "1.2.0".toList, []⟩,
         ⟨"X".toList, "1.1.0".toList, []⟩] none) "X".toList).toList) ∧
    ((targetItems
        [⟨"X".toList, "1.0.0".toList, []⟩, ⟨"X".toList, "1.2.0".toList, []⟩,
         ⟨"X".toList, "1.1.0".toList, []⟩] none).filter
        (fun it => decide (it.1.name = "X".toList)) ≠ [] →
      ((compute_extract_targets
        [⟨"X".toList, "1.0.0".toList, []⟩, ⟨"X".toList, "1.2.0".toList, []⟩,
         ⟨"X".toList, "1.1.0".toList, []⟩] none VersionFlag.latestVersions).filter
        (fun t => decide (t.1.name = "X".toList))).length = 1) :=
  C6_latest_keeps_first_maximum
    [⟨"X".toList, "1.0.0".toList, []⟩, ⟨"X".toList, "1.2.0".toList, []⟩,
     ⟨"X".toList, "1.1.0".toList, []⟩] none (by decide) "X".toList
